import Mathlib

/-!
# protoschedule: weekly prototype schedules

A shallow embedding of `protoschedule.go` together with the properties of its
materialisation (`loadNew`) and query (`Within`, `MatchingIntervals`) code.

Modelling conventions.

* A `time.Time` is an integer count of nanoseconds since the Unix epoch, a
  `time.Duration` an integer count of nanoseconds kept in the signed 64-bit
  range by `wrapInt64` where the source does arithmetic on it.  The range
  limits of `time.Time` itself are not modelled.
* A `time.Time` the caller passes in (`Time`) carries its own `Location`; the
  instants the package computes are in `time.Local` and are kept as integers.
* A `Location` is an initial offset and a list of transitions, looked up as
  in the Go library; a calendar date is the number of its day since January
  1, 1970, so `time.Date`, `Time.AddDate` and `Time.Weekday` work on day
  numbers and seconds of the day.  The zone rules beyond the transition table
  (the `extend` string of the Go library) are not modelled.
* Library routines the repository calls but does not define are fields of
  `GoRuntime`: `sort.Sort` (any procedure returning a permutation ordered by
  `Less`; Go does not promise stability), `time.ParseDuration`,
  `json.Unmarshal` and the zone `time.Local`.  `time.Parse` with the layout
  `"1504"` is modelled directly, following the scanner of the Go library.
* A run-time panic (index out of range) is the result `none`.
-/

namespace Protoschedule

set_option maxRecDepth 100000

/-! ## Time -/

/-! An instant is an `Int`: nanoseconds since the Unix epoch. -/

/-- Go `time.Second`, in nanoseconds. -/
def Second : Int := 1000000000

/-- Go `time.Minute`. -/
def Minute : Int := 60 * Second

/-- Go `time.Hour`. -/
def Hour : Int := 60 * Minute

/-- Go `Time.After`: comparison at nanosecond precision. -/
def After (t u : Int) : Bool := decide (u < t)

/-- Go `Time.Before`: comparison at nanosecond precision. -/
def Before (t u : Int) : Bool := decide (t < u)

/-- Go `Time.Unix`: whole seconds since the Unix epoch, rounded down. -/
def Unix (t : Int) : Int := t / Second

/-- Two's-complement wrap of an integer into the `int64` range. -/
def wrapInt64 (x : Int) : Int := (x + 9223372036854775808) % 18446744073709551616 - 9223372036854775808

/-- The zero `time.Time` (January 1, year 1, 00:00:00 UTC). -/
def zeroTime : Int := -62135596800 * Second

/-- The instant `time.Parse` assigns to a clock-only layout at 00:00:
January 1, year 0, 00:00:00 UTC. -/
def clockBase : Int := -62167219200 * Second

/-! ## Locations and calendar arithmetic -/

/-- Nanoseconds in 24 hours. -/
def Day : Int := 24 * Hour

/-- Go `secondsPerDay`. -/
def secondsPerDay : Int := 86400

/-- Go `alpha`: the start of the first zone period. -/
def zoneAlpha : Int := -9223372036854775808

/-- Go `omega`: the end of the last zone period. -/
def zoneOmega : Int := 9223372036854775807

/-- Go `time.Location`: the offset (seconds east of UTC) in force before the
first transition, and the transitions in ascending order of time, each a
Unix second and the offset in force from then on. -/
structure Location where
  first : Int
  tx : List (Int × Int)
  deriving DecidableEq, Repr

/-- The search of `Location.lookup`: the period that holds `sec`, as its
offset, start and end, given the period `offset`, `start` reached so far. -/
def Location.lookupFrom : Int → Int → List (Int × Int) → Int → Int × Int × Int
  | offset, start, [], _ => (offset, start, zoneOmega)
  | offset, start, (w, next) :: rest, sec =>
    if sec < w then (offset, start, w) else Location.lookupFrom next w rest sec

/-- Go `Location.lookup(sec)`: offset, start and end of the zone period in
force at the Unix second `sec`. -/
def Location.lookup (l : Location) (sec : Int) : Int × Int × Int :=
  Location.lookupFrom l.first zoneAlpha l.tx sec

/-- The offset in force at the Unix second `sec`. -/
def Location.offsetAt (l : Location) (sec : Int) : Int :=
  (l.lookup sec).1

/-- Go `time.Date(.., loc)` after the calendar fields are turned into `unix`,
the seconds the date and clock would have in UTC: the zone adjustment
`_, offset, start, end, _ := loc.lookup(unix); if offset != 0 { utc := unix -
offset; if utc < start || utc >= end { offset = loc.lookup(utc) }; unix -=
offset }`.  The result is a Unix second. -/
def Location.date (l : Location) (unix : Int) : Int :=
  match l.lookup unix with
  | (offset, start, stop) =>
    if offset ≠ 0 then
      if unix - offset < start ∨ unix - offset ≥ stop then unix - l.offsetAt (unix - offset)
      else unix - offset
    else unix

/-- Go `time.FixedZone`: a location without transitions. -/
def Location.fixed (offset : Int) : Location := ⟨offset, []⟩

/-- A `time.Time` the caller hands to the package: the instant, in
nanoseconds since the Unix epoch, and the location the value carries. -/
structure Time where
  ns : Int
  loc : Location
  deriving DecidableEq, Repr

/-- The calendar date the instant `t` shows in `l`, as a day number. -/
def Location.dayOf (l : Location) (t : Int) : Int :=
  (t / Second + l.offsetAt (t / Second)) / secondsPerDay

/-- The clock the instant `t` shows in `l`, in nanoseconds since 00:00. -/
def Location.clockOf (l : Location) (t : Int) : Int :=
  (t / Second + l.offsetAt (t / Second)) % secondsPerDay * Second + t % Second

/-- The date `t.Year(), t.Month(), t.Day()`, read in the location of `t`, as
a day number. -/
def Time.civilDay (t : Time) : Int :=
  t.loc.dayOf t.ns

/-- Go `Time.Weekday` (Sunday = 0 .. Saturday = 6) of the instant `t` read in
the location `l`.  January 1, 1970 was a Thursday. -/
def Weekday (l : Location) (t : Int) : Int :=
  (l.dayOf t + 4) % 7

/-- Go `time.Monday`. -/
def Monday : Int := 1

/-- The expression `time.Date(t.Year(), t.Month(), t.Day(), 0, 0, 0, 0, time.Local)`
with `l` for `time.Local`: the date `t` shows in its own location, at 00:00
in `l`. -/
def midnight (l : Location) (t : Time) : Int :=
  l.date (t.civilDay * secondsPerDay) * Second

/-- Go `t.AddDate(0, 0, days)` for an instant `t` in the location `l`:
`time.Date` of the date and clock `t` shows in `l`, with the day moved by
`days`. -/
def AddDate (l : Location) (t : Int) (days : Int) : Int :=
  l.date (t / Second + l.offsetAt (t / Second) + days * secondsPerDay) * Second + t % Second

/-- The loop `for epoch.Weekday() != time.Monday { epoch = epoch.AddDate(0, 0, -1) }`
run for at most `fuel` steps; `none` when the fuel runs out before a Monday is
reached. -/
def mondayLoop (l : Location) : Nat → Int → Option Int
  | 0, epoch => if Weekday l epoch ≠ Monday then none else some epoch
  | fuel + 1, epoch =>
    if Weekday l epoch ≠ Monday then mondayLoop l fuel (AddDate l epoch (-1)) else some epoch

/-! ## Data model -/

/-- Struct used in the decoding of the JSON-encoded schedule. -/
structure IntervalJSONEncoding where
  Start : String
  Duration : String
  Label : String
  deriving DecidableEq, Repr

/-- Identifies unique intervals in the ScheduleDefinition.  The field `end_`
is the source field `end`. -/
structure IntervalValue where
  start : Int
  end_ : Int
  label : String
  deriving DecidableEq, Repr

/-- The anonymous struct `Schedule` of `ScheduleDefinition`: one record list
per day.  A day key missing from the JSON leaves its list empty. -/
structure WeekSchedule where
  Mon : List IntervalJSONEncoding
  Tue : List IntervalJSONEncoding
  Wed : List IntervalJSONEncoding
  Thu : List IntervalJSONEncoding
  Fri : List IntervalJSONEncoding
  Sat : List IntervalJSONEncoding
  Sun : List IntervalJSONEncoding
  deriving DecidableEq, Repr

/-- A ScheduleDefinition represents intervals which comprise a weekly
schedule, calculated from a prototypical definition. -/
structure ScheduleDefinition where
  Description : String
  Schedule : WeekSchedule
  currentJSON : String
  first : Int
  last : Int
  intervals : List IntervalValue
  deriving DecidableEq, Repr

/-- The errors `NewFromTime` and `loadNew` report. -/
inductive LoadError where
  | json
  | startToken
  | durationToken
  deriving DecidableEq, Repr

/-- `ByStart.Less` lifted to values: `a.start.Before(b.start)`. -/
def ByStart.Less (a b : IntervalValue) : Bool := Before a.start b.start

/-- The library routines the package relies on.

* `sortByStart` is `sort.Sort(ByStart(..))`: its result is a permutation of
  its input in which no later element is `Less` than an earlier one.
* `parseDuration` is `time.ParseDuration`; an accepted duration is an `int64`.
* `unmarshal` is `json.Unmarshal` into a fresh `ScheduleDefinition`, giving
  the description and the seven day lists; the empty document is rejected.
* `Local` is the zone `time.Local`.  That the loop of `loadNew` which steps
  back to a Monday ends depends on the transitions of that zone: `loopBound`
  is a number of steps within which it ends from every start `loadNew` gives
  it. -/
structure GoRuntime where
  sortByStart : List IntervalValue → List IntervalValue
  sortByStart_perm : ∀ l, (sortByStart l).Perm l
  sortByStart_sorted : ∀ l, (sortByStart l).Pairwise (fun a b => ByStart.Less b a = false)
  parseDuration : String → Option Int
  parseDuration_range : ∀ s d, parseDuration s = some d →
    -9223372036854775808 ≤ d ∧ d ≤ 9223372036854775807
  unmarshal : String → Option (String × WeekSchedule)
  unmarshal_empty : unmarshal "" = none
  Local : Location
  loopBound : Nat
  loop_ends : ∀ t : Time, (mondayLoop Local loopBound (midnight Local t)).isSome = true

/-! ## `time.Parse` for the layout `"1504"` -/

/-- The layout constant of the package: military time. -/
def ANSIC_FORMAT : String := "1504"

/-- Go `isDigit(s, i)`: position `i` exists and holds an ASCII digit. -/
def isDigit (s : List Char) (i : Nat) : Bool :=
  match s.get? i with
  | none => false
  | some c => decide (48 ≤ c.toNat ∧ c.toNat ≤ 57)

/-- The value `int(s[i] - '0')` of a digit. -/
def digitAt (s : List Char) (i : Nat) : Nat :=
  match s.get? i with
  | none => 0
  | some c => c.toNat - 48

/-- Go `getnum(s, fixed)`: a number of one or two digits (exactly two when
`fixed`), and the rest of the text. -/
def getnum (s : List Char) (fixed : Bool) : Option (Nat × List Char) :=
  if !isDigit s 0 then none
  else if !isDigit s 1 then
    if fixed then none else some (digitAt s 0, s.drop 1)
  else some (digitAt s 0 * 10 + digitAt s 1, s.drop 2)

/-- Go `time.Parse(layout, value)` for the one layout the package uses,
`"1504"` (an hour chunk `15` read by `getnum(value, false)`, then a
zero-padded minute chunk `04` read by `getnum(value, true)`, each followed by
its range check, then the check for extra text).  The result is the instant
on January 1 of year 0, UTC.  Other layouts are not modelled. -/
def timeParse (layout value : String) : Option Int :=
  if layout ≠ "1504" then none
  else
    match getnum value.toList false with
    | none => none
    | some (hour, rest) =>
      if 24 ≤ hour then none
      else
        match getnum rest true with
        | none => none
        | some (min, rest) =>
          if 60 ≤ min then none
          else if rest ≠ [] then none
          else some (clockBase + (hour : Int) * Hour + (min : Int) * Minute)

/-! ## Materialisation -/

/-- The inner loop of `loadNew` over the records of one day: each record is
parsed and its interval appended to `intervals`; the first record that fails
to parse stops the loop with the error and the intervals appended so far. -/
def loadDay (rt : GoRuntime) (epoch : Int) :
    List IntervalJSONEncoding → List IntervalValue → List IntervalValue × Option LoadError
  | [], intervals => (intervals, none)
  | interval :: rest, intervals =>
    let base := (timeParse ANSIC_FORMAT "0000").getD zeroTime
    match timeParse ANSIC_FORMAT interval.Start with
    | none => (intervals, some LoadError.startToken)
    | some start =>
      let seconds := start - base
      let shiftStart := epoch + seconds
      match rt.parseDuration interval.Duration with
      | none => (intervals, some LoadError.durationToken)
      | some duration =>
        let duration := wrapInt64 (duration - 1 * Second)
        let shiftEnd := shiftStart + duration
        loadDay rt epoch rest (intervals ++ [⟨shiftStart, shiftEnd, interval.Label⟩])

/-- The outer loop of `loadNew` over the seven day lists: after each day the
anchor moves on by 24 hours. -/
def loadDays (rt : GoRuntime) :
    Int → List (List IntervalJSONEncoding) → List IntervalValue →
      List IntervalValue × Option LoadError
  | _, [], intervals => (intervals, none)
  | epoch, value :: days, intervals =>
    match loadDay rt epoch value intervals with
    | (intervals, some err) => (intervals, some err)
    | (intervals, none) => loadDays rt (epoch + 24 * Hour) days intervals

/-- The array literal `{sd.Schedule.Mon, .., sd.Schedule.Sun}` of `loadNew`. -/
def WeekSchedule.days (s : WeekSchedule) : List (List IntervalJSONEncoding) :=
  [s.Mon, s.Tue, s.Wed, s.Thu, s.Fri, s.Sat, s.Sun]

/-- Loads new intervals from the defined prototype schedule, based on the time
supplied.  The result is the state of the receiver after the call and the
error returned; `none` is the index-out-of-range panic of `sd.intervals[0]`
on an empty list, or a loop that has not ended within `rt.loopBound` steps,
which `rt.loop_ends` excludes.  On a parse error the receiver keeps the
intervals appended so far (the assignment `sd = nil` only changes the local
pointer). -/
def loadNew (rt : GoRuntime) (sd : ScheduleDefinition) (t : Time) :
    Option (ScheduleDefinition × Option LoadError) :=
  match mondayLoop rt.Local rt.loopBound (midnight rt.Local t) with
  | none => none
  | some epoch =>
    match loadDays rt epoch sd.Schedule.days sd.intervals with
    | (intervals, some err) => some ({ sd with intervals := intervals }, some err)
    | (intervals, none) =>
      let sorted := rt.sortByStart intervals
      match sorted.head?, sorted.getLast? with
      | some f, some l =>
        some ({ sd with intervals := sorted, first := f.start, last := l.end_ }, none)
      | _, _ => none

/-- The value `new(ScheduleDefinition)`. -/
def ScheduleDefinition.new : ScheduleDefinition :=
  { Description := "", Schedule := ⟨[], [], [], [], [], [], []⟩, currentJSON := "",
    first := zeroTime, last := zeroTime, intervals := [] }

/-- Construct a new ScheduleDefinition, using the supplied json string and a
specific time.  The result is the schedule returned and the error returned;
`none` is a panic.  A decode that fails is taken to leave the description and
the day lists as they were, empty. -/
def NewFromTime (rt : GoRuntime) (jsonString : String) (t : Time) :
    Option (ScheduleDefinition × Option LoadError) :=
  let sd := ScheduleDefinition.new
  if sd.currentJSON ≠ jsonString then
    let sd := { sd with intervals := [], currentJSON := jsonString }
    match rt.unmarshal sd.currentJSON with
    | none => some (sd, some LoadError.json)
    | some (description, schedule) =>
      loadNew rt { sd with Description := description, Schedule := schedule } t
  else loadNew rt sd t

/-- Construct a new ScheduleDefinition from the supplied json string.  The
reading `time.Now()` of the clock is the argument `now`. -/
def New (rt : GoRuntime) (jsonString : String) (now : Time) :
    Option (ScheduleDefinition × Option LoadError) :=
  NewFromTime rt jsonString now

/-! ## Queries -/

/-- The test both query loops apply to an interval `v`:
`(t.After(v.start) || t.Unix() == v.start.Unix()) && (t.Before(v.end) || t.Unix() == v.end.Unix())`. -/
def covers (t : Int) (v : IntervalValue) : Bool :=
  (After t v.start || Unix t == Unix v.start) && (Before t v.end_ || Unix t == Unix v.end_)

/-- The scan of `Within`: `true` at the first interval that passes the test. -/
def withinLoop (t : Int) : List IntervalValue → Bool
  | [] => false
  | v :: rest => if covers t v then true else withinLoop t rest

/-- Determines if the supplied time is within the defined prototypical
schedule, using Second precision.  Returns the state of the receiver after the
call and the answer; `none` is a panic inside `loadNew`.  The error `loadNew`
returns is dropped, as in the source. -/
def Within (rt : GoRuntime) (sd : ScheduleDefinition) (t : Time) :
    Option (ScheduleDefinition × Bool) :=
  if After t.ns sd.last || Before t.ns sd.first then
    match loadNew rt sd t with
    | none => none
    | some (sd, _) => some (sd, withinLoop t.ns sd.intervals)
  else some (sd, withinLoop t.ns sd.intervals)

/-- The loop of `MatchingIntervals`, with the slice `a` built so far. -/
def matchingLoop (t : Int) : List IntervalValue → List IntervalValue → List IntervalValue
  | [], a => a
  | v :: rest, a => if covers t v then matchingLoop t rest (a ++ [v]) else matchingLoop t rest a

/-- Returns all matching intervals in the weekly schedule based on the
supplied time. -/
def MatchingIntervals (sd : ScheduleDefinition) (t : Time) : List IntervalValue :=
  matchingLoop t.ns sd.intervals []

/-- The call `sd.MatchingIntervals(t)` with the receiver made explicit: the
state of the receiver after the call and the slice returned.  The body reads
`sd.intervals` and assigns to no field of `sd`. -/
def MatchingIntervals.call (sd : ScheduleDefinition) (t : Time) :
    ScheduleDefinition × List IntervalValue :=
  (sd, matchingLoop t.ns sd.intervals [])

/-! ## A concrete runtime

An instance of `GoRuntime` on which the definitions above can be evaluated:
insertion sort (what `sort.Sort` runs on slices of at most 12 elements since
Go 1.19), the integer fragment of `time.ParseDuration`, and a decoder given by
a table of documents with their decoded values. -/

/-- Go `leadingInt`: the leading decimal digits of `s` as a number, with the
rest of the text; `none` on overflow past `1 << 63`. -/
def leadingInt : List Char → Nat → Option (Nat × List Char)
  | [], x => some (x, [])
  | c :: s, x =>
    if c.toNat < 48 ∨ c.toNat > 57 then some (x, c :: s)
    else if x > 9223372036854775808 / 10 then none
    else
      let x := x * 10 + (c.toNat - 48)
      if x > 9223372036854775808 then none else leadingInt s x

/-- The unit scan of `time.ParseDuration`: the text up to the next `.` or
digit, and the rest. -/
def unitSpan : List Char → List Char × List Char
  | [] => ([], [])
  | c :: s =>
    if c = '.' ∨ (48 ≤ c.toNat ∧ c.toNat ≤ 57) then ([], c :: s)
    else ((unitSpan s).1.cons c, (unitSpan s).2)

/-- Go `unitMap`: nanoseconds per unit. -/
def unitMap (u : List Char) : Option Nat :=
  if u = ['n', 's'] then some 1
  else if u = ['u', 's'] then some 1000
  else if u = ['µ', 's'] then some 1000
  else if u = ['μ', 's'] then some 1000
  else if u = ['m', 's'] then some 1000000
  else if u = ['s'] then some 1000000000
  else if u = ['m'] then some 60000000000
  else if u = ['h'] then some 3600000000000
  else none

/-- The main loop of `time.ParseDuration` over groups of a number and a unit,
with the total `d` so far.  A group with a decimal point is outside the
fragment (Go evaluates it in floating point) and is rejected here.  The fuel
is the length of the text, of which each round consumes at least two
characters. -/
def durationLoop : Nat → List Char → Nat → Option Nat
  | _, [], d => some d
  | 0, _ :: _, _ => none
  | fuel + 1, c :: s, d =>
    if ¬ (c = '.' ∨ (48 ≤ c.toNat ∧ c.toNat ≤ 57)) then none
    else
      match leadingInt (c :: s) 0 with
      | none => none
      | some (v, s) =>
        if s.head? = some '.' then none
        else if (unitSpan s).1 = [] then none
        else
          match unitMap (unitSpan s).1 with
          | none => none
          | some unit =>
            if v > 9223372036854775808 / unit then none
            else if d + v * unit > 9223372036854775808 then none
            else durationLoop fuel (unitSpan s).2 (d + v * unit)

/-- The sign of `time.ParseDuration`: whether the text starts with `-`, and
the text after an optional sign. -/
def durationSign : List Char → Bool × List Char
  | '-' :: s => (true, s)
  | '+' :: s => (false, s)
  | s => (false, s)

/-- Go `time.ParseDuration` on texts of the form `[-+]?([0-9]+[a-zµμ]+)+` and
on `0`: the integer fragment of the library routine. -/
def parseDurationInt (text : String) : Option Int :=
  let neg := (durationSign text.toList).1
  let s := (durationSign text.toList).2
  if s = ['0'] then some 0
  else if s = [] then none
  else
    match durationLoop s.length s 0 with
    | none => none
    | some d =>
      if neg then some (-(d : Int))
      else if d > 9223372036854775807 then none
      else some (d : Int)

/-- The order `sort.Sort` must establish: `b` is not `Less` than `a`. -/
def startLE (a b : IntervalValue) : Prop := ByStart.Less b a = false

instance startLE.decidable : DecidableRel startLE :=
  fun a b => inferInstanceAs (Decidable (ByStart.Less b a = false))

/-- The runtime used to evaluate examples: insertion sort, the integer
fragment of the duration parser, the documents `docs` with their decoded
values, and a local zone `offset` seconds east of UTC. -/
def exampleRuntime (docs : List (String × String × WeekSchedule)) (offset : Int) : GoRuntime where
  sortByStart := List.insertionSort startLE
  sortByStart_perm := fun l => List.perm_insertionSort startLE l
  sortByStart_sorted := by
    intro l
    haveI : IsTotal IntervalValue startLE :=
      ⟨fun a b => by simp only [startLE, ByStart.Less, Before, decide_eq_false_iff_not]; omega⟩
    haveI : IsTrans IntervalValue startLE :=
      ⟨fun a b c => by simp only [startLE, ByStart.Less, Before, decide_eq_false_iff_not]; omega⟩
    exact List.sorted_insertionSort startLE l
  parseDuration := parseDurationInt
  parseDuration_range := by
    have loop : ∀ fuel s d r, d ≤ 9223372036854775808 → durationLoop fuel s d = some r →
        r ≤ 9223372036854775808 := by
      intro fuel
      induction fuel with
      | zero =>
        intro s d r hd h
        cases s with
        | nil => simp only [durationLoop, Option.some.injEq] at h; omega
        | cons c s => simp [durationLoop] at h
      | succ n ih =>
        intro s d r hd h
        cases s with
        | nil => simp only [durationLoop, Option.some.injEq] at h; omega
        | cons c s =>
          simp only [durationLoop] at h
          split at h
          · exact absurd h (by simp)
          · split at h
            · exact absurd h (by simp)
            · split at h
              · exact absurd h (by simp)
              · split at h
                · exact absurd h (by simp)
                · split at h
                  · exact absurd h (by simp)
                  · split at h
                    · exact absurd h (by simp)
                    · split at h
                      · exact absurd h (by simp)
                      · exact ih _ _ _ (by omega) h
    intro text d h
    simp only [parseDurationInt] at h
    split at h
    · simp only [Option.some.injEq] at h; omega
    · split at h
      · exact absurd h (by simp)
      · split at h
        · exact absurd h (by simp)
        · rename_i r hr
          have hb := loop _ _ _ _ (by omega) hr
          split at h
          · simp only [Option.some.injEq] at h; omega
          · split at h
            · exact absurd h (by simp)
            · simp only [Option.some.injEq] at h; omega
  unmarshal := fun jsonString => if jsonString = "" then none else docs.lookup jsonString
  unmarshal_empty := by simp
  Local := Location.fixed offset
  loopBound := 6
  loop_ends := by
    have hlookup : ∀ s, (Location.fixed offset).lookup s = (offset, zoneAlpha, zoneOmega) :=
      fun s => rfl
    have hoff : ∀ s, (Location.fixed offset).offsetAt s = offset := fun s => rfl
    have hdate : ∀ x, (Location.fixed offset).date x = x - offset := by
      intro x
      simp only [Location.date, hlookup, hoff]
      split_ifs <;> omega
    have hstep : ∀ e, AddDate (Location.fixed offset) e (-1) = e - Day := by
      intro e
      simp only [AddDate, hdate, hoff, Day, Hour, Minute, Second, secondsPerDay]
      omega
    have hwd : ∀ e, Weekday (Location.fixed offset) (e - Day) =
        (Weekday (Location.fixed offset) e + 6) % 7 ∧
        0 ≤ Weekday (Location.fixed offset) e ∧ Weekday (Location.fixed offset) e < 7 := by
      intro e
      simp only [Weekday, Location.dayOf, hoff, Day, Hour, Minute, Second, secondsPerDay]
      omega
    have hloop : ∀ (fuel : Nat) (e : Int),
        (Weekday (Location.fixed offset) e + 6) % 7 ≤ (fuel : Int) →
        (mondayLoop (Location.fixed offset) fuel e).isSome = true := by
      intro fuel
      induction fuel with
      | zero =>
        intro e h
        have hr := hwd e
        have hw : Weekday (Location.fixed offset) e = 1 := by
          simp only [Nat.cast_zero] at h
          omega
        simp [mondayLoop, Monday, hw]
      | succ n ih =>
        intro e h
        have hr := hwd e
        by_cases hw : Weekday (Location.fixed offset) e = 1
        · simp [mondayLoop, Monday, hw]
        · have hr2 := hwd (e - Day)
          have hle : (Weekday (Location.fixed offset) (e - Day) + 6) % 7 ≤ (n : Int) := by
            push_cast at h
            omega
          simp only [mondayLoop, Monday, ne_eq, hw, not_false_eq_true, if_true, hstep]
          exact ih _ hle
    intro t
    have hr := hwd (midnight (Location.fixed offset) t)
    exact hloop 6 _ (by push_cast; omega)

/-- The runtime `exampleRuntime` in a zone `zone` that may have transitions,
given a number of steps `bound` within which the loop of `loadNew` ends
there. -/
def zoneRuntime (docs : List (String × String × WeekSchedule)) (zone : Location) (bound : Nat)
    (h : ∀ t : Time, (mondayLoop zone bound (midnight zone t)).isSome = true) : GoRuntime :=
  { exampleRuntime docs 0 with Local := zone, loopBound := bound, loop_ends := h }

/-- One step of the gap-6 pass of `sort.Sort`, at the index `i = k + 6`:
`if data.Less(i, i-6) { data.Swap(i, i-6) }`.  Here `y` is the element at
index `k` and `x` the element at index `k + 6`. -/
def shellStep (l : List IntervalValue) (k : Nat) : List IntervalValue :=
  match l.drop k with
  | [] => l
  | y :: rest =>
    match rest.drop 5 with
    | [] => l
    | x :: post =>
      if ByStart.Less x y then l.take k ++ x :: (rest.take 5 ++ y :: post) else l

/-- The gap-6 pass `for i := a + 6; i < b; i++ { .. }` over the whole slice. -/
def shellPass (l : List IntervalValue) : List IntervalValue :=
  (List.range (l.length - 6)).foldl shellStep l

/-- The small-slice path of `sort.Sort` as shipped from Go 1.6 to Go 1.18,
taken for slices of at most 12 elements: a gap-6 pass followed by insertion
sort.  It orders every list; on longer slices the library first partitions. -/
def legacySort (l : List IntervalValue) : List IntervalValue :=
  List.insertionSort startLE (shellPass l)

/-- The runtime `exampleRuntime` with `legacySort` for `sort.Sort`. -/
def legacyRuntime (docs : List (String × String × WeekSchedule)) (offset : Int) : GoRuntime where
  sortByStart := legacySort
  sortByStart_perm := by
    have step : ∀ (l : List IntervalValue) (k : Nat), (shellStep l k).Perm l := by
      intro l k
      unfold shellStep
      split
      · exact List.Perm.refl _
      · rename_i y rest hy
        split
        · exact List.Perm.refl _
        · rename_i x post hx
          split
          · have hl : l = l.take k ++ y :: (rest.take 5 ++ x :: post) := by
              conv_lhs => rw [← List.take_append_drop k l, hy, ← List.take_append_drop 5 rest, hx]
            refine List.Perm.trans ?_ (List.Perm.of_eq hl.symm)
            refine List.Perm.append_left _ ?_
            exact (List.perm_middle.cons x).trans
              ((List.Perm.swap y x _).trans (List.perm_middle.symm.cons y))
          · exact List.Perm.refl _
    have pass : ∀ (ks : List Nat) (l : List IntervalValue), (ks.foldl shellStep l).Perm l := by
      intro ks
      induction ks with
      | nil => intro l; exact List.Perm.refl _
      | cons k ks ih => intro l; exact (ih (shellStep l k)).trans (step l k)
    intro l
    exact (List.perm_insertionSort startLE (shellPass l)).trans (pass _ l)
  sortByStart_sorted := by
    intro l
    haveI : IsTotal IntervalValue startLE :=
      ⟨fun a b => by simp only [startLE, ByStart.Less, Before, decide_eq_false_iff_not]; omega⟩
    haveI : IsTrans IntervalValue startLE :=
      ⟨fun a b c => by simp only [startLE, ByStart.Less, Before, decide_eq_false_iff_not]; omega⟩
    exact List.sorted_insertionSort startLE (shellPass l)
  parseDuration := (exampleRuntime docs offset).parseDuration
  parseDuration_range := (exampleRuntime docs offset).parseDuration_range
  unmarshal := (exampleRuntime docs offset).unmarshal
  unmarshal_empty := (exampleRuntime docs offset).unmarshal_empty
  Local := (exampleRuntime docs offset).Local
  loopBound := (exampleRuntime docs offset).loopBound
  loop_ends := (exampleRuntime docs offset).loop_ends

/-! ## Specification-level notions -/

/-- A record parses: `time.Parse` accepts its start token and
`time.ParseDuration` its duration token. -/
def recordOK (rt : GoRuntime) (r : IntervalJSONEncoding) : Bool :=
  (timeParse ANSIC_FORMAT r.Start).isSome && (rt.parseDuration r.Duration).isSome

/-- Every record of every day parses. -/
def ValidProto (rt : GoRuntime) (s : WeekSchedule) : Prop :=
  ∀ day ∈ s.days, ∀ r ∈ day, recordOK rt r = true

/-- The number of records declared over the seven days. -/
def recordCount (s : WeekSchedule) : Nat :=
  s.Mon.length + s.Tue.length + s.Wed.length + s.Thu.length + s.Fri.length + s.Sat.length +
    s.Sun.length

/-- The interval `loadNew` builds from a record that parses, for the day
anchored at `epoch`. -/
def mkInterval (rt : GoRuntime) (epoch : Int) (r : IntervalJSONEncoding) : IntervalValue :=
  let start := (timeParse ANSIC_FORMAT r.Start).getD clockBase
  let duration := (rt.parseDuration r.Duration).getD 0
  ⟨epoch + (start - clockBase), epoch + (start - clockBase) + wrapInt64 (duration - Second),
    r.Label⟩

/-- The intervals of the days `days`, the first of them anchored at `epoch`
and each following one 24 hours later, in declaration order. -/
def weekIntervals (rt : GoRuntime) : Int → List (List IntervalJSONEncoding) → List IntervalValue
  | _, [] => []
  | epoch, value :: days =>
    value.map (mkInterval rt epoch) ++ weekIntervals rt (epoch + 24 * Hour) days

/-- The anchor of the week of `t`: the instant the loop of `loadNew` ends
at. -/
def weekAnchor (rt : GoRuntime) (t : Time) : Int :=
  (mondayLoop rt.Local rt.loopBound (midnight rt.Local t)).getD 0

/-- The offset of `l` is `o` at every Unix second from `lo` to `hi`: no
transition of the zone changes it there. -/
def Location.steady (l : Location) (o lo hi : Int) : Prop :=
  ∀ s, lo ≤ s → s ≤ hi → l.offsetAt s = o

/-- The list is in ascending order of start. -/
def SortedByStart (l : List IntervalValue) : Prop :=
  l.Pairwise (fun a b => a.start ≤ b.start)

/-- The states a schedule can be in: those `NewFromTime` returns without an
error, and those any sequence of `Within` calls leads to from there. -/
inductive Reachable (rt : GoRuntime) : ScheduleDefinition → Prop
  | construct (jsonString : String) (t : Time) (sd : ScheduleDefinition) :
      NewFromTime rt jsonString t = some (sd, none) → Reachable rt sd
  | query (sd : ScheduleDefinition) (t : Time) (sd' : ScheduleDefinition) (b : Bool) :
      Reachable rt sd → Within rt sd t = some (sd', b) → Reachable rt sd'

/-- The start token is a 4-digit 24-hour clock text, `0000` to `2359`. -/
def validClock (s : String) : Bool :=
  match s.toList with
  | [a, b, c, d] =>
    decide (48 ≤ a.toNat ∧ a.toNat ≤ 57) && decide (48 ≤ b.toNat ∧ b.toNat ≤ 57) &&
    decide (48 ≤ c.toNat ∧ c.toNat ≤ 57) && decide (48 ≤ d.toNat ∧ d.toNat ≤ 57) &&
    decide ((a.toNat - 48) * 10 + (b.toNat - 48) < 24) &&
    decide ((c.toNat - 48) * 10 + (d.toNat - 48) < 60)
  | _ => false

/-- The duration token of a record parses to at least one second. -/
def atLeastSecond (rt : GoRuntime) (r : IntervalJSONEncoding) : Bool :=
  match rt.parseDuration r.Duration with
  | none => false
  | some d => decide (Second ≤ d)

/-- The hours `HH` of a start token `HHMM`. -/
def clockHour (s : String) : Int :=
  ((digitAt s.toList 0 * 10 + digitAt s.toList 1 : Nat) : Int)

/-- The minutes `MM` of a start token `HHMM`. -/
def clockMinute (s : String) : Int :=
  ((digitAt s.toList 2 * 10 + digitAt s.toList 3 : Nat) : Int)

/-- A sequence of `Within` calls made one after the other on a schedule, with
the state they leave and their answers in order. -/
def runQueries (rt : GoRuntime) :
    ScheduleDefinition → List Time → Option (ScheduleDefinition × List Bool)
  | sd, [] => some (sd, [])
  | sd, t :: ts =>
    match Within rt sd t with
    | none => none
    | some (sd', b) => (runQueries rt sd' ts).map (fun r => (r.1, b :: r.2))

/-- A schedule built by `NewFromTime` at the reference instant `r` without an
error and then queried at the instants `ts`. -/
def session (rt : GoRuntime) (jsonString : String) (r : Time) (ts : List Time) :
    Option (ScheduleDefinition × List Bool) :=
  match NewFromTime rt jsonString r with
  | some (sd, none) => runQueries rt sd ts
  | _ => none

instance ValidProto.decidable (rt : GoRuntime) (s : WeekSchedule) : Decidable (ValidProto rt s) :=
  inferInstanceAs (Decidable (∀ day ∈ s.days, ∀ r ∈ day, recordOK rt r = true))

instance SortedByStart.decidable (l : List IntervalValue) : Decidable (SortedByStart l) :=
  inferInstanceAs (Decidable (l.Pairwise (fun (a b : IntervalValue) => a.start ≤ b.start)))

/-! ## Example schedules -/

/-- Midnight of Monday, January 1, 2024, UTC. -/
def monday2024 : Int := 1704067200 * Second

/-- The instant `ns` as a `time.Time` in the location UTC. -/
def inUTC (ns : Int) : Time := ⟨ns, Location.fixed 0⟩

/-- A zone three hours west of UTC that moves its clocks forward by one hour
at local midnight of Sunday, November 4, 2018 (03:00 UTC), as
`America/Sao_Paulo` did: that day has no 00:00. -/
def midnightShift : Location := ⟨-10800, [(1541300400, -7200)]⟩

/-- Noon of Sunday, November 4, 2018 in `midnightShift` (14:00 UTC). -/
def sundayNoon : Time := ⟨1541340000 * Second, midnightShift⟩

/-- One shift: Monday 08:00 for eight hours. -/
def shiftProto : WeekSchedule :=
  ⟨[⟨"0800", "8h", "day"⟩], [], [], [], [], [], []⟩

/-- The JSON text of `shiftProto`. -/
def shiftDoc : String :=
  "\x7b\"description\":\"one shift\",\"schedule\":\x7b\"mon\":[\x7b\"start\":\"0800\",\"duration\":\"8h\",\"label\":\"day\"\x7d]\x7d\x7d"

/-- A Monday interval of 48 hours and a Tuesday interval of one hour inside it. -/
def nestedProto : WeekSchedule :=
  ⟨[⟨"0800", "48h", "long"⟩], [⟨"0800", "1h", "short"⟩], [], [], [], [], []⟩

/-- The JSON text of `nestedProto`. -/
def nestedDoc : String :=
  "\x7b\"description\":\"nested\",\"schedule\":\x7b\"mon\":[\x7b\"start\":\"0800\",\"duration\":\"48h\",\"label\":\"long\"\x7d],\"tue\":[\x7b\"start\":\"0800\",\"duration\":\"1h\",\"label\":\"short\"\x7d]\x7d\x7d"

/-- One Monday record whose duration is zero. -/
def zeroProto : WeekSchedule :=
  ⟨[⟨"0800", "0s", "none"⟩], [], [], [], [], [], []⟩

/-- The JSON text of `zeroProto`. -/
def zeroDoc : String :=
  "\x7b\"description\":\"zero\",\"schedule\":\x7b\"mon\":[\x7b\"start\":\"0800\",\"duration\":\"0s\",\"label\":\"none\"\x7d]\x7d\x7d"

/-- Two overlapping Monday shifts and a Tuesday shift. -/
def overlapProto : WeekSchedule :=
  ⟨[⟨"0800", "8h", "early"⟩, ⟨"1000", "8h", "late"⟩], [⟨"0800", "8h", "early"⟩], [], [], [], [], []⟩

/-- The JSON text of `overlapProto`. -/
def overlapDoc : String :=
  "\x7b\"description\":\"overlap\",\"schedule\":\x7b\"mon\":[\x7b\"start\":\"0800\",\"duration\":\"8h\",\"label\":\"early\"\x7d,\x7b\"start\":\"1000\",\"duration\":\"8h\",\"label\":\"late\"\x7d],\"tue\":[\x7b\"start\":\"0800\",\"duration\":\"8h\",\"label\":\"early\"\x7d]\x7d\x7d"

/-- A Monday record whose duration token has no unit. -/
def malformedProto : WeekSchedule :=
  ⟨[⟨"0800", "8h", "day"⟩, ⟨"1000", "8", "late"⟩], [], [], [], [], [], []⟩

/-- The JSON text of `malformedProto`. -/
def malformedDoc : String :=
  "\x7b\"description\":\"malformed\",\"schedule\":\x7b\"mon\":[\x7b\"start\":\"0800\",\"duration\":\"8h\",\"label\":\"day\"\x7d,\x7b\"start\":\"1000\",\"duration\":\"8\",\"label\":\"late\"\x7d]\x7d\x7d"

/-- A definition that declares no record. -/
def emptyProto : WeekSchedule :=
  ⟨[], [], [], [], [], [], []⟩

/-- The JSON text of `emptyProto`. -/
def emptyDoc : String :=
  "\x7b\"description\":\"empty\",\"schedule\":\x7b\x7d\x7d"

/-- Seven Monday records: the first two have the same start and the last one
the earliest start. -/
def tiesProto : WeekSchedule :=
  ⟨[⟨"1000", "1h", "a"⟩, ⟨"1000", "1h", "b"⟩, ⟨"1100", "1h", "c"⟩, ⟨"1200", "1h", "d"⟩,
    ⟨"1300", "1h", "e"⟩, ⟨"1400", "1h", "f"⟩, ⟨"0900", "1h", "g"⟩], [], [], [], [], [], []⟩

/-- The JSON text of `tiesProto`. -/
def tiesDoc : String :=
  "\x7b\"description\":\"ties\",\"schedule\":\x7b\"mon\":[\x7b\"start\":\"1000\",\"duration\":\"1h\",\"label\":\"a\"\x7d,\x7b\"start\":\"1000\",\"duration\":\"1h\",\"label\":\"b\"\x7d,\x7b\"start\":\"1100\",\"duration\":\"1h\",\"label\":\"c\"\x7d,\x7b\"start\":\"1200\",\"duration\":\"1h\",\"label\":\"d\"\x7d,\x7b\"start\":\"1300\",\"duration\":\"1h\",\"label\":\"e\"\x7d,\x7b\"start\":\"1400\",\"duration\":\"1h\",\"label\":\"f\"\x7d,\x7b\"start\":\"0900\",\"duration\":\"1h\",\"label\":\"g\"\x7d]\x7d\x7d"

/-- A Monday record whose duration lies within one second of the least
`int64`. -/
def wrapProto : WeekSchedule :=
  ⟨[⟨"0800", "-9223372036s", "x"⟩], [], [], [], [], [], []⟩

/-- The JSON text of `wrapProto`. -/
def wrapDoc : String :=
  "\x7b\"description\":\"wrap\",\"schedule\":\x7b\"mon\":[\x7b\"start\":\"0800\",\"duration\":\"-9223372036s\",\"label\":\"x\"\x7d]\x7d\x7d"

/-- A Monday night shift that runs into Tuesday, and two overlapping Tuesday
shifts. -/
def overnightProto : WeekSchedule :=
  ⟨[⟨"2200", "14h", "night"⟩], [⟨"0800", "8h", "early"⟩, ⟨"1000", "8h", "late"⟩],
    [], [], [], [], []⟩

/-- The JSON text of `overnightProto`. -/
def overnightDoc : String :=
  "\x7b\"description\":\"overnight\",\"schedule\":\x7b\"mon\":[\x7b\"start\":\"2200\",\"duration\":\"14h\",\"label\":\"night\"\x7d],\"tue\":[\x7b\"start\":\"0800\",\"duration\":\"8h\",\"label\":\"early\"\x7d,\x7b\"start\":\"1000\",\"duration\":\"8h\",\"label\":\"late\"\x7d]\x7d\x7d"

/-- The example documents with the values `json.Unmarshal` decodes them to. -/
def exampleDocs : List (String × String × WeekSchedule) :=
  [(shiftDoc, "one shift", shiftProto),
   (nestedDoc, "nested", nestedProto),
   (zeroDoc, "zero", zeroProto),
   (overlapDoc, "overlap", overlapProto),
   (malformedDoc, "malformed", malformedProto),
   (emptyDoc, "empty", emptyProto),
   (tiesDoc, "ties", tiesProto),
   (wrapDoc, "wrap", wrapProto),
   (overnightDoc, "overnight", overnightProto)]

/-- The runtime of the examples: the local zone is UTC. -/
def exampleRT : GoRuntime := exampleRuntime exampleDocs 0

/-- The runtime of the examples with the sort of Go 1.6 to Go 1.18. -/
def legacyRT : GoRuntime := legacyRuntime exampleDocs 0

/-- The schedule `NewFromTime` builds from `shiftDoc` in the week of
`monday2024`. -/
def shiftSchedule : ScheduleDefinition :=
  { Description := "one shift", Schedule := shiftProto, currentJSON := shiftDoc,
    first := monday2024 + 8 * Hour, last := monday2024 + 16 * Hour - Second,
    intervals := [⟨monday2024 + 8 * Hour, monday2024 + 16 * Hour - Second, "day"⟩] }

/-- The schedule `NewFromTime` builds from `zeroDoc` in the week of
`monday2024`: its one interval ends a second before it starts. -/
def zeroSchedule : ScheduleDefinition :=
  { Description := "zero", Schedule := zeroProto, currentJSON := zeroDoc,
    first := monday2024 + 8 * Hour, last := monday2024 + 8 * Hour - Second,
    intervals := [⟨monday2024 + 8 * Hour, monday2024 + 8 * Hour - Second, "none"⟩] }

/-- The schedule `NewFromTime` builds from `overlapDoc` in the week of
`monday2024`. -/
def overlapSchedule : ScheduleDefinition :=
  { Description := "overlap", Schedule := overlapProto, currentJSON := overlapDoc,
    first := monday2024 + 8 * Hour, last := monday2024 + Day + 16 * Hour - Second,
    intervals :=
      [⟨monday2024 + 8 * Hour, monday2024 + 16 * Hour - Second, "early"⟩,
       ⟨monday2024 + 10 * Hour, monday2024 + 18 * Hour - Second, "late"⟩,
       ⟨monday2024 + Day + 8 * Hour, monday2024 + Day + 16 * Hour - Second, "early"⟩] }

/-! ## Basic facts -/

theorem covers_iff (t : Int) (v : IntervalValue) :
    covers t v = true ↔
      (v.start < t ∨ Unix t = Unix v.start) ∧ (t < v.end_ ∨ Unix t = Unix v.end_) := by
  simp [covers, After, Before]

theorem covers_iff_unix (t : Int) (v : IntervalValue) :
    covers t v = true ↔ Unix v.start ≤ Unix t ∧ Unix t ≤ Unix v.end_ := by
  rw [covers_iff]
  simp only [Unix, Second]
  omega

theorem withinLoop_iff (t : Int) (l : List IntervalValue) :
    withinLoop t l = true ↔ ∃ v ∈ l, covers t v = true := by
  induction l with
  | nil => simp [withinLoop]
  | cons v rest ih =>
    by_cases h : covers t v = true
    · simp [withinLoop, h]
    · simp [withinLoop, h, ih]

theorem matchingLoop_eq (t : Int) (l a : List IntervalValue) :
    matchingLoop t l a = a ++ l.filter (covers t) := by
  induction l generalizing a with
  | nil => simp [matchingLoop]
  | cons v rest ih =>
    by_cases h : covers t v = true
    · simp [matchingLoop, h, ih]
    · simp [matchingLoop, h, ih]

theorem Weekday_range (l : Location) (t : Int) : 0 ≤ Weekday l t ∧ Weekday l t < 7 := by
  simp only [Weekday]
  omega

/-- Where the offset is `o` both at `x` read as a UTC second and at the
instant found with it, `time.Date` returns that instant. -/
theorem date_of_offset (l : Location) (x o : Int) (h1 : l.offsetAt x = o)
    (h2 : l.offsetAt (x - o) = o) : l.date x = x - o := by
  have h1' : (l.lookup x).1 = o := h1
  simp only [Location.date, h1']
  split_ifs
  · rw [h2]
  · rfl
  · omega

/-- At 00:00 of day `d` in a zone whose offset there is `o`, the calendar day
read back is `d`. -/
theorem dayOf_steady (l : Location) (o d : Int)
    (h : l.offsetAt (d * secondsPerDay - o) = o) :
    l.dayOf ((d * secondsPerDay - o) * Second) = d := by
  have hS : Second ≠ 0 := by simp [Second]
  simp only [Location.dayOf]
  rw [Int.mul_ediv_cancel _ hS, h]
  simp only [secondsPerDay]
  omega

/-- At 00:00 of day `d` in a zone whose offset there is `o`, the clock read
back is 00:00:00. -/
theorem clockOf_steady (l : Location) (o d : Int)
    (h : l.offsetAt (d * secondsPerDay - o) = o) :
    l.clockOf ((d * secondsPerDay - o) * Second) = 0 := by
  have hS : Second ≠ 0 := by simp [Second]
  simp only [Location.clockOf]
  rw [Int.mul_ediv_cancel _ hS, h, Int.mul_emod_left]
  simp only [secondsPerDay, Second]
  omega

/-- One step of the loop, `AddDate(0, 0, -1)`, from 00:00 of day `d` to 00:00
of day `d - 1`, where the offset is `o` at both. -/
theorem AddDate_steady (l : Location) (o d : Int)
    (h : l.offsetAt (d * secondsPerDay - o) = o)
    (h1 : l.offsetAt ((d - 1) * secondsPerDay) = o)
    (h2 : l.offsetAt ((d - 1) * secondsPerDay - o) = o) :
    AddDate l ((d * secondsPerDay - o) * Second) (-1) =
      ((d - 1) * secondsPerDay - o) * Second := by
  have hS : Second ≠ 0 := by simp [Second]
  have hx : d * secondsPerDay - o + o + -1 * secondsPerDay = (d - 1) * secondsPerDay := by
    simp only [secondsPerDay]
    omega
  simp only [AddDate]
  rw [Int.mul_ediv_cancel _ hS, h, Int.mul_emod_left, hx, date_of_offset l _ o h1 h2]
  simp

/-- The loop of `loadNew` in a zone that keeps the offset `o` over the days
stepped through: started at 00:00 of day `d`, it steps back to 00:00 of the
Monday on or before that day. -/
theorem mondayLoop_steady (l : Location) (o D : Int)
    (hs : l.steady o ((D - 7) * secondsPerDay) ((D + 1) * secondsPerDay))
    (ho : -secondsPerDay ≤ o ∧ o ≤ secondsPerDay) (n : Nat) (d : Int)
    (hd1 : D - 6 + n ≤ d) (hd2 : d ≤ D)
    (hn : ((d + 4) % 7 + 6) % 7 ≤ (n : Int)) :
    mondayLoop l n ((d * secondsPerDay - o) * Second) =
      some (((d - ((d + 4) % 7 + 6) % 7) * secondsPerDay - o) * Second) := by
  induction n generalizing d with
  | zero =>
    have hoff : l.offsetAt (d * secondsPerDay - o) = o := by
      apply hs
      · simp only [secondsPerDay] at ho ⊢
        push_cast at hd1
        omega
      · simp only [secondsPerDay] at ho ⊢
        omega
    have hw : Weekday l ((d * secondsPerDay - o) * Second) = Monday := by
      simp only [Weekday, dayOf_steady l o d hoff, Monday]
      simp only [Nat.cast_zero] at hn
      omega
    have hz : ((d + 4) % 7 + 6) % 7 = 0 := by
      simp only [Nat.cast_zero] at hn
      omega
    simp only [mondayLoop, hw, ne_eq, not_true_eq_false, if_false, hz, sub_zero]
  | succ n ih =>
    have hoff : l.offsetAt (d * secondsPerDay - o) = o := by
      apply hs
      · simp only [secondsPerDay] at ho ⊢
        push_cast at hd1
        omega
      · simp only [secondsPerDay] at ho ⊢
        omega
    have hwd : Weekday l ((d * secondsPerDay - o) * Second) = (d + 4) % 7 := by
      simp only [Weekday, dayOf_steady l o d hoff]
    by_cases hw : (d + 4) % 7 = 1
    · have hz : ((d + 4) % 7 + 6) % 7 = 0 := by omega
      simp only [mondayLoop, hwd, hw, Monday, ne_eq, not_true_eq_false, if_false]
      rw [hw] at hz
      simp only [hz, sub_zero]
    · have h1 : l.offsetAt ((d - 1) * secondsPerDay) = o := by
        apply hs
        · simp only [secondsPerDay] at ho ⊢
          push_cast at hd1
          omega
        · simp only [secondsPerDay] at ho ⊢
          omega
      have h2 : l.offsetAt ((d - 1) * secondsPerDay - o) = o := by
        apply hs
        · simp only [secondsPerDay] at ho ⊢
          push_cast at hd1
          omega
        · simp only [secondsPerDay] at ho ⊢
          omega
      have hn' : (((d - 1) + 4) % 7 + 6) % 7 ≤ (n : Int) := by
        push_cast at hn
        omega
      have hres := ih (d - 1) (by push_cast at hd1; omega) (by omega) hn'
      have hk : d - 1 - ((d - 1 + 4) % 7 + 6) % 7 = d - ((d + 4) % 7 + 6) % 7 := by omega
      rw [hk] at hres
      simp only [mondayLoop, hwd, hw, Monday, ne_eq, not_false_eq_true, if_true,
        AddDate_steady l o d hoff h1 h2, hres]

/-- More fuel does not change what the loop returns. -/
theorem mondayLoop_mono (l : Location) (n k : Nat) (e a : Int)
    (h : mondayLoop l n e = some a) : mondayLoop l (n + k) e = some a := by
  induction n generalizing e with
  | zero =>
    by_cases hw : Weekday l e = Monday
    · simp only [mondayLoop, hw, ne_eq, not_true_eq_false, if_false] at h
      cases k with
      | zero => simp [mondayLoop, hw, h]
      | succ k => simp [mondayLoop, hw, h]
    · simp [mondayLoop, hw] at h
  | succ n ih =>
    have hnk : n + 1 + k = (n + k) + 1 := by omega
    rw [hnk]
    by_cases hw : Weekday l e = Monday
    · simp only [mondayLoop, hw, ne_eq, not_true_eq_false, if_false] at h ⊢
      exact h
    · simp only [mondayLoop, ne_eq, hw, not_false_eq_true, if_true] at h ⊢
      exact ih _ h

/-- Two runs of the loop that both end return the same instant. -/
theorem mondayLoop_unique (l : Location) (n m : Nat) (e a b : Int)
    (ha : mondayLoop l n e = some a) (hb : mondayLoop l m e = some b) : a = b := by
  have h1 := mondayLoop_mono l n m e a ha
  have h2 := mondayLoop_mono l m n e b hb
  rw [Nat.add_comm] at h2
  rw [h1] at h2
  exact Option.some.inj h2

theorem mondayLoop_fuel (rt : GoRuntime) (t : Time) :
    mondayLoop rt.Local rt.loopBound (midnight rt.Local t) = some (weekAnchor rt t) := by
  have h := rt.loop_ends t
  cases hl : mondayLoop rt.Local rt.loopBound (midnight rt.Local t) with
  | none => simp [hl] at h
  | some a => simp [weekAnchor, hl]

/-- In `midnightShift` the loop of `loadNew` ends within six steps from every
start: away from the transition the zone keeps one offset, and the eight days
around it are traced one by one. -/
theorem midnightShift_loop_ends (t : Time) :
    (mondayLoop midnightShift 6 (midnight midnightShift t)).isSome = true := by
  have hoff : ∀ s, midnightShift.offsetAt s = if s < 1541300400 then -10800 else -7200 := by
    intro s
    simp only [Location.offsetAt, Location.lookup, Location.lookupFrom, midnightShift]
    split_ifs <;> rfl
  simp only [midnight]
  generalize t.civilDay = D
  by_cases h1 : D ≤ 17838
  · have hs : midnightShift.steady (-10800) ((D - 7) * secondsPerDay)
        ((D + 1) * secondsPerDay) := by
      intro s _ hhi
      simp only [secondsPerDay] at hhi
      rw [hoff, if_pos (by omega)]
    have hd := date_of_offset midnightShift (D * secondsPerDay) (-10800)
      (hs _ (by simp only [secondsPerDay]; omega) (by simp only [secondsPerDay]; omega))
      (hs _ (by simp only [secondsPerDay]; omega) (by simp only [secondsPerDay]; omega))
    have hl := mondayLoop_steady midnightShift (-10800) D hs (by decide) 6 D
      (by push_cast; omega) (le_refl _) (by push_cast; omega)
    rw [hd, hl]
    rfl
  · by_cases h2 : 17847 ≤ D
    · have hs : midnightShift.steady (-7200) ((D - 7) * secondsPerDay)
          ((D + 1) * secondsPerDay) := by
        intro s hlo _
        simp only [secondsPerDay] at hlo
        rw [hoff, if_neg (by omega)]
      have hd := date_of_offset midnightShift (D * secondsPerDay) (-7200)
        (hs _ (by simp only [secondsPerDay]; omega) (by simp only [secondsPerDay]; omega))
        (hs _ (by simp only [secondsPerDay]; omega) (by simp only [secondsPerDay]; omega))
      have hl := mondayLoop_steady midnightShift (-7200) D hs (by decide) 6 D
        (by push_cast; omega) (le_refl _) (by push_cast; omega)
      rw [hd, hl]
      rfl
    · have hlo : 17839 ≤ D := by omega
      have hhi : D ≤ 17846 := by omega
      interval_cases D <;> decide

theorem timeParse_base : timeParse ANSIC_FORMAT "0000" = some clockBase := by decide

theorem loadDay_ok (rt : GoRuntime) (epoch : Int) (recs : List IntervalJSONEncoding)
    (acc : List IntervalValue) (h : ∀ r ∈ recs, recordOK rt r = true) :
    loadDay rt epoch recs acc = (acc ++ recs.map (mkInterval rt epoch), none) := by
  induction recs generalizing acc with
  | nil => simp [loadDay]
  | cons r rest ih =>
    have hr := h r (List.mem_cons_self _ _)
    have hrest : ∀ x ∈ rest, recordOK rt x = true := fun x hx => h x (List.mem_cons_of_mem _ hx)
    simp only [recordOK, Bool.and_eq_true, Option.isSome_iff_exists] at hr
    obtain ⟨⟨s, hs⟩, ⟨d, hd⟩⟩ := hr
    simp only [loadDay, hs, hd, timeParse_base, Option.getD_some, ih _ hrest, one_mul,
      List.map_cons, mkInterval, List.append_assoc, List.singleton_append]

theorem loadDay_err (rt : GoRuntime) (epoch : Int) (recs : List IntervalJSONEncoding)
    (acc : List IntervalValue) (h : ∃ r ∈ recs, recordOK rt r = false) :
    ∃ ivs e, loadDay rt epoch recs acc = (ivs, some e) := by
  induction recs generalizing acc with
  | nil => simp at h
  | cons r rest ih =>
    by_cases hr : recordOK rt r = true
    · have hrest : ∃ x ∈ rest, recordOK rt x = false := by
        obtain ⟨x, hx, hxf⟩ := h
        rcases List.mem_cons.mp hx with rfl | hx
        · simp [hr] at hxf
        · exact ⟨x, hx, hxf⟩
      simp only [recordOK, Bool.and_eq_true, Option.isSome_iff_exists] at hr
      obtain ⟨⟨s, hs⟩, ⟨d, hd⟩⟩ := hr
      simp only [loadDay, hs, hd]
      exact ih _ hrest
    · cases hs : timeParse ANSIC_FORMAT r.Start with
      | none => exact ⟨acc, LoadError.startToken, by simp [loadDay, hs]⟩
      | some s =>
        cases hd : rt.parseDuration r.Duration with
        | none => exact ⟨acc, LoadError.durationToken, by simp [loadDay, hs, hd]⟩
        | some d => simp [recordOK, hs, hd] at hr


theorem loadDays_ok (rt : GoRuntime) (epoch : Int) (days : List (List IntervalJSONEncoding))
    (acc : List IntervalValue) (h : ∀ day ∈ days, ∀ r ∈ day, recordOK rt r = true) :
    loadDays rt epoch days acc = (acc ++ weekIntervals rt epoch days, none) := by
  induction days generalizing epoch acc with
  | nil => simp [loadDays, weekIntervals]
  | cons day rest ih =>
    have hday := h day (List.mem_cons_self _ _)
    have hrest : ∀ d ∈ rest, ∀ r ∈ d, recordOK rt r = true :=
      fun d hd => h d (List.mem_cons_of_mem _ hd)
    simp only [loadDays, loadDay_ok rt epoch day acc hday, ih _ _ hrest, weekIntervals,
      List.append_assoc]

theorem loadDays_err (rt : GoRuntime) (epoch : Int) (days : List (List IntervalJSONEncoding))
    (acc : List IntervalValue) (h : ∃ day ∈ days, ∃ r ∈ day, recordOK rt r = false) :
    ∃ ivs e, loadDays rt epoch days acc = (ivs, some e) := by
  induction days generalizing epoch acc with
  | nil => simp at h
  | cons day rest ih =>
    by_cases hday : ∀ r ∈ day, recordOK rt r = true
    · have hrest : ∃ d ∈ rest, ∃ r ∈ d, recordOK rt r = false := by
        obtain ⟨d, hd, r, hr, hrf⟩ := h
        rcases List.mem_cons.mp hd with rfl | hd
        · rw [hday r hr] at hrf
          exact absurd hrf (by simp)
        · exact ⟨d, hd, r, hr, hrf⟩
      simp only [loadDays, loadDay_ok rt epoch day acc hday]
      exact ih _ _ hrest
    · have hbad : ∃ r ∈ day, recordOK rt r = false := by
        push_neg at hday
        obtain ⟨r, hr, hrf⟩ := hday
        exact ⟨r, hr, by simpa using hrf⟩
      obtain ⟨ivs, e, he⟩ := loadDay_err rt epoch day acc hbad
      exact ⟨ivs, e, by simp [loadDays, he]⟩

theorem validProto_or_bad (rt : GoRuntime) (s : WeekSchedule) :
    ValidProto rt s ∨ ∃ day ∈ s.days, ∃ r ∈ day, recordOK rt r = false := by
  by_cases h : ValidProto rt s
  · exact Or.inl h
  · right
    simp only [ValidProto, not_forall] at h
    obtain ⟨day, hday, r, hr, hrf⟩ := h
    exact ⟨day, hday, r, hr, by simpa using hrf⟩

theorem weekIntervals_length (rt : GoRuntime) (epoch : Int) (s : WeekSchedule) :
    (weekIntervals rt epoch s.days).length = recordCount s := by
  simp only [WeekSchedule.days, weekIntervals, recordCount, List.length_append, List.length_map,
    List.length_nil]
  omega

theorem sortByStart_sorted (rt : GoRuntime) (l : List IntervalValue) :
    SortedByStart (rt.sortByStart l) := by
  refine List.Pairwise.imp ?_ (rt.sortByStart_sorted l)
  intro a b h
  simp only [ByStart.Less, Before, decide_eq_false_iff_not] at h
  omega

theorem sortByStart_mem (rt : GoRuntime) (l : List IntervalValue) (v : IntervalValue) :
    v ∈ rt.sortByStart l ↔ v ∈ l :=
  (rt.sortByStart_perm l).mem_iff

theorem sortByStart_length (rt : GoRuntime) (l : List IntervalValue) :
    (rt.sortByStart l).length = l.length :=
  (rt.sortByStart_perm l).length_eq

theorem sortByStart_ne_nil (rt : GoRuntime) (l : List IntervalValue) (h : l ≠ []) :
    rt.sortByStart l ≠ [] := by
  intro hs
  have := sortByStart_length rt l
  rw [hs] at this
  exact h (List.length_eq_zero.mp this.symm)

/-- What `loadNew` does on a prototype whose records all parse, when the
list is not left empty: the intervals of the week of `t` are appended to the
intervals already held, the whole list is sorted, and `first` and `last` are
read off its two ends. -/
theorem loadNew_ok (rt : GoRuntime) (sd : ScheduleDefinition) (t : Time)
    (hv : ValidProto rt sd.Schedule)
    (hne : sd.intervals ++ weekIntervals rt (weekAnchor rt t) sd.Schedule.days ≠ []) :
    ∃ f l,
      (rt.sortByStart
        (sd.intervals ++ weekIntervals rt (weekAnchor rt t) sd.Schedule.days)).head? = some f ∧
      (rt.sortByStart
        (sd.intervals ++ weekIntervals rt (weekAnchor rt t) sd.Schedule.days)).getLast? = some l ∧
      loadNew rt sd t = some
        ({ sd with
            intervals := rt.sortByStart
              (sd.intervals ++ weekIntervals rt (weekAnchor rt t) sd.Schedule.days),
            first := f.start, last := l.end_ }, none) := by
  have hs := sortByStart_ne_nil rt _ hne
  obtain ⟨f, hf⟩ : ∃ f, (rt.sortByStart
      (sd.intervals ++ weekIntervals rt (weekAnchor rt t) sd.Schedule.days)).head? = some f := by
    cases hl : rt.sortByStart
        (sd.intervals ++ weekIntervals rt (weekAnchor rt t) sd.Schedule.days) with
    | nil => exact absurd hl hs
    | cons a l => exact ⟨a, rfl⟩
  obtain ⟨l, hl⟩ : ∃ l, (rt.sortByStart
      (sd.intervals ++ weekIntervals rt (weekAnchor rt t) sd.Schedule.days)).getLast? = some l :=
    ⟨_, List.getLast?_eq_getLast _ hs⟩
  refine ⟨f, l, hf, hl, ?_⟩
  simp only [loadNew, mondayLoop_fuel, loadDays_ok rt _ _ _ hv, hf, hl]

/-- On a prototype with a record that does not parse `loadNew` returns an
error. -/
theorem loadNew_err (rt : GoRuntime) (sd : ScheduleDefinition) (t : Time)
    (hbad : ∃ day ∈ sd.Schedule.days, ∃ r ∈ day, recordOK rt r = false) :
    ∃ ivs e, loadNew rt sd t = some ({ sd with intervals := ivs }, some e) := by
  obtain ⟨ivs, e, he⟩ := loadDays_err rt (weekAnchor rt t) sd.Schedule.days sd.intervals hbad
  exact ⟨ivs, e, by simp only [loadNew, mondayLoop_fuel, he]⟩

/-- The states `loadNew` leaves without an error. -/
theorem loadNew_success (rt : GoRuntime) (sd sd' : ScheduleDefinition) (t : Time)
    (h : loadNew rt sd t = some (sd', none)) :
    ValidProto rt sd.Schedule ∧
    ∃ f l,
      (rt.sortByStart
        (sd.intervals ++ weekIntervals rt (weekAnchor rt t) sd.Schedule.days)).head? = some f ∧
      (rt.sortByStart
        (sd.intervals ++ weekIntervals rt (weekAnchor rt t) sd.Schedule.days)).getLast? = some l ∧
      sd' = { sd with
            intervals := rt.sortByStart
              (sd.intervals ++ weekIntervals rt (weekAnchor rt t) sd.Schedule.days),
            first := f.start, last := l.end_ } := by
  rcases validProto_or_bad rt sd.Schedule with hv | hbad
  · refine ⟨hv, ?_⟩
    by_cases hne : sd.intervals ++ weekIntervals rt (weekAnchor rt t) sd.Schedule.days = []
    · have hs : rt.sortByStart
          (sd.intervals ++ weekIntervals rt (weekAnchor rt t) sd.Schedule.days) = [] := by
        have := sortByStart_length rt
          (sd.intervals ++ weekIntervals rt (weekAnchor rt t) sd.Schedule.days)
        rw [hne] at this
        rw [hne]
        exact List.length_eq_zero.mp this
      simp [loadNew, mondayLoop_fuel, loadDays_ok rt _ _ _ hv, hs] at h
    · obtain ⟨f, l, hf, hl, hload⟩ := loadNew_ok rt sd t hv hne
      rw [hload] at h
      simp only [Option.some.injEq, Prod.mk.injEq, and_true] at h
      exact ⟨f, l, hf, hl, h.symm⟩
  · obtain ⟨ivs, e, he⟩ := loadNew_err rt sd t hbad
    rw [he] at h
    simp at h


theorem weekIntervals_eq_nil (rt : GoRuntime) (epoch : Int) (s : WeekSchedule) :
    weekIntervals rt epoch s.days = [] ↔ recordCount s = 0 := by
  rw [← weekIntervals_length rt epoch s, List.length_eq_zero]

/-- The call `loadNew` panics exactly when it is left with no interval at all:
the schedule holds none and the prototype declares none. -/
theorem loadNew_eq_none_iff (rt : GoRuntime) (sd : ScheduleDefinition) (t : Time) :
    loadNew rt sd t = none ↔ sd.intervals = [] ∧ recordCount sd.Schedule = 0 := by
  rcases validProto_or_bad rt sd.Schedule with hv | hbad
  · by_cases hne : sd.intervals ++ weekIntervals rt (weekAnchor rt t) sd.Schedule.days = []
    · have hs : rt.sortByStart
          (sd.intervals ++ weekIntervals rt (weekAnchor rt t) sd.Schedule.days) = [] := by
        have := sortByStart_length rt
          (sd.intervals ++ weekIntervals rt (weekAnchor rt t) sd.Schedule.days)
        rw [hne] at this
        rw [hne]
        exact List.length_eq_zero.mp this
      have hnone : loadNew rt sd t = none := by
        simp [loadNew, mondayLoop_fuel, loadDays_ok rt _ _ _ hv, hs]
      rw [List.append_eq_nil, weekIntervals_eq_nil] at hne
      simp [hnone, hne]
    · obtain ⟨f, l, _, _, hload⟩ := loadNew_ok rt sd t hv hne
      rw [List.append_eq_nil, weekIntervals_eq_nil] at hne
      simp [hload, hne]
  · obtain ⟨ivs, e, he⟩ := loadNew_err rt sd t hbad
    have hcount : recordCount sd.Schedule ≠ 0 := by
      intro h0
      rw [← weekIntervals_eq_nil rt 0] at h0
      obtain ⟨day, hday, r, hr, _⟩ := hbad
      have hlen := weekIntervals_length rt 0 sd.Schedule
      rw [h0] at hlen
      simp only [recordCount, List.length_nil] at hlen
      simp only [WeekSchedule.days, List.mem_cons, List.mem_singleton, List.not_mem_nil,
        or_false] at hday
      have hpos : 0 < day.length := List.length_pos_of_mem hr
      rcases hday with rfl | rfl | rfl | rfl | rfl | rfl | rfl <;> omega
    simp [he, hcount]

theorem NewFromTime_decoded (rt : GoRuntime) (jsonString description : String)
    (schedule : WeekSchedule) (t : Time) (h : rt.unmarshal jsonString = some (description, schedule)) :
    NewFromTime rt jsonString t =
      loadNew rt ⟨description, schedule, jsonString, zeroTime, zeroTime, []⟩ t := by
  have hne : jsonString ≠ "" := by
    intro he
    rw [he, rt.unmarshal_empty] at h
    exact absurd h (by simp)
  simp [NewFromTime, ScheduleDefinition.new, Ne.symm hne, h]

theorem NewFromTime_undecoded (rt : GoRuntime) (jsonString : String) (t : Time)
    (hne : jsonString ≠ "") (h : rt.unmarshal jsonString = none) :
    NewFromTime rt jsonString t =
      some (⟨"", ⟨[], [], [], [], [], [], []⟩, jsonString, zeroTime, zeroTime, []⟩,
        some LoadError.json) := by
  simp [NewFromTime, ScheduleDefinition.new, Ne.symm hne, h]

theorem NewFromTime_empty (rt : GoRuntime) (t : Time) : NewFromTime rt "" t = none := by
  have h : NewFromTime rt "" t = loadNew rt ScheduleDefinition.new t := by
    simp [NewFromTime, ScheduleDefinition.new]
  rw [h, loadNew_eq_none_iff]
  simp [ScheduleDefinition.new, recordCount]

/-- A construction without error went through the decoder and one successful
`loadNew` on the decoded prototype. -/
theorem NewFromTime_success (rt : GoRuntime) (jsonString : String) (t : Time)
    (sd : ScheduleDefinition) (h : NewFromTime rt jsonString t = some (sd, none)) :
    ∃ description schedule, rt.unmarshal jsonString = some (description, schedule) ∧
      loadNew rt ⟨description, schedule, jsonString, zeroTime, zeroTime, []⟩ t =
        some (sd, none) := by
  by_cases hne : jsonString = ""
  · rw [hne, NewFromTime_empty] at h
    exact absurd h (by simp)
  · cases hu : rt.unmarshal jsonString with
    | none =>
      rw [NewFromTime_undecoded rt jsonString t hne hu] at h
      simp at h
    | some p =>
      obtain ⟨description, schedule⟩ := p
      rw [NewFromTime_decoded rt jsonString description schedule t hu] at h
      exact ⟨description, schedule, rfl, h⟩

/-- The two ways a `Within` call that returns can have run: with a refresh by
`loadNew` when `t` lies outside `[first, last]`, without one otherwise. -/
theorem Within_some (rt : GoRuntime) (sd sd' : ScheduleDefinition) (t : Time) (b : Bool)
    (h : Within rt sd t = some (sd', b)) :
    b = withinLoop t.ns sd'.intervals ∧
      (((sd.last < t.ns ∨ t.ns < sd.first) ∧ ∃ e, loadNew rt sd t = some (sd', e)) ∨
       (¬ (sd.last < t.ns ∨ t.ns < sd.first) ∧ sd' = sd)) := by
  by_cases hout : sd.last < t.ns ∨ t.ns < sd.first
  · have hc : (After t.ns sd.last || Before t.ns sd.first) = true := by
      simpa [After, Before] using hout
    simp only [Within, hc, if_true] at h
    cases hl : loadNew rt sd t with
    | none => simp [hl] at h
    | some p =>
      obtain ⟨sd1, e⟩ := p
      simp only [hl, Option.some.injEq, Prod.mk.injEq] at h
      obtain ⟨h1, h2⟩ := h
      subst h1
      exact ⟨h2.symm, Or.inl ⟨hout, e, rfl⟩⟩
  · have hc : ¬ (After t.ns sd.last || Before t.ns sd.first) = true := by
      simpa [After, Before] using hout
    simp only [Within, hc, Bool.false_eq_true, if_false, Option.some.injEq, Prod.mk.injEq] at h
    obtain ⟨h1, h2⟩ := h
    subst h1
    exact ⟨h2.symm, Or.inr ⟨hout, rfl⟩⟩

theorem Within_eq_none_iff (rt : GoRuntime) (sd : ScheduleDefinition) (t : Time) :
    Within rt sd t = none ↔
      (sd.last < t.ns ∨ t.ns < sd.first) ∧ sd.intervals = [] ∧ recordCount sd.Schedule = 0 := by
  by_cases hout : sd.last < t.ns ∨ t.ns < sd.first
  · have hc : (After t.ns sd.last || Before t.ns sd.first) = true := by
      simpa [After, Before] using hout
    rw [← loadNew_eq_none_iff rt sd t]
    simp only [Within, hc, if_true, hout, true_and]
    cases hl : loadNew rt sd t with
    | none => simp
    | some p => simp
  · have hc : ¬ (After t.ns sd.last || Before t.ns sd.first) = true := by
      simpa [After, Before] using hout
    simp [Within, hc, hout]

/-- The invariant of reachable states: the prototype parses, the materialised
list is not empty and is in ascending order of start, `first` is the start of
its first entry and `last` the end of its last entry. -/
theorem Reachable_inv (rt : GoRuntime) (sd : ScheduleDefinition) (h : Reachable rt sd) :
    ValidProto rt sd.Schedule ∧ sd.intervals ≠ [] ∧ SortedByStart sd.intervals ∧
      sd.intervals.head?.map (fun v => v.start) = some sd.first ∧
      sd.intervals.getLast?.map (fun v => v.end_) = some sd.last := by
  induction h with
  | construct jsonString t sd hnew =>
    obtain ⟨description, schedule, _, hload⟩ := NewFromTime_success rt jsonString t sd hnew
    obtain ⟨hv, f, l, hf, hl, hsd⟩ := loadNew_success rt _ sd t hload
    subst hsd
    dsimp only at hf hl hv ⊢
    refine ⟨hv, ?_, sortByStart_sorted rt _, by rw [hf]; rfl, by rw [hl]; rfl⟩
    intro hnil
    rw [hnil] at hf
    simp at hf
  | query sd t sd' b _ hw ih =>
    obtain ⟨hv, hne, hs, hfirst, hlast⟩ := ih
    obtain ⟨_, hcase⟩ := Within_some rt sd sd' t b hw
    rcases hcase with ⟨_, e, hload⟩ | ⟨_, rfl⟩
    · have hne2 : sd.intervals ++ weekIntervals rt (weekAnchor rt t) sd.Schedule.days ≠ [] := by
        simp [hne]
      obtain ⟨f, l, hf, hl, hok⟩ := loadNew_ok rt sd t hv hne2
      rw [hok] at hload
      simp only [Option.some.injEq, Prod.mk.injEq] at hload
      obtain ⟨hsd, _⟩ := hload
      subst hsd
      exact ⟨hv, sortByStart_ne_nil rt _ hne2, sortByStart_sorted rt _, by rw [hf]; rfl,
        by rw [hl]; rfl⟩
    · exact ⟨hv, hne, hs, hfirst, hlast⟩

/-- In a reachable state a refresh by `loadNew` succeeds: it appends the week
of `t` to the list held and sorts the whole. -/
theorem Reachable_loadNew (rt : GoRuntime) (sd : ScheduleDefinition) (t : Time)
    (h : Reachable rt sd) :
    ∃ sd', loadNew rt sd t = some (sd', none) ∧
      sd'.intervals = rt.sortByStart
        (sd.intervals ++ weekIntervals rt (weekAnchor rt t) sd.Schedule.days) := by
  obtain ⟨hv, hne, _⟩ := Reachable_inv rt sd h
  have hne2 : sd.intervals ++ weekIntervals rt (weekAnchor rt t) sd.Schedule.days ≠ [] := by
    simp [hne]
  obtain ⟨f, l, _, _, hok⟩ := loadNew_ok rt sd t hv hne2
  exact ⟨_, hok, rfl⟩

/-- In a reachable state `Within` returns, and every interval held before the
call is still held after it. -/
theorem Reachable_Within (rt : GoRuntime) (sd : ScheduleDefinition) (t : Time)
    (h : Reachable rt sd) :
    ∃ sd', Within rt sd t = some (sd', withinLoop t.ns sd'.intervals) ∧
      ∀ v ∈ sd.intervals, v ∈ sd'.intervals := by
  by_cases hout : sd.last < t.ns ∨ t.ns < sd.first
  · have hc : (After t.ns sd.last || Before t.ns sd.first) = true := by
      simpa [After, Before] using hout
    obtain ⟨sd', hload, hiv⟩ := Reachable_loadNew rt sd t h
    refine ⟨sd', by simp only [Within, hc, if_true, hload], ?_⟩
    intro v hv
    rw [hiv, sortByStart_mem]
    exact List.mem_append_left _ hv
  · have hc : (After t.ns sd.last || Before t.ns sd.first) = false := by
      simpa [After, Before] using hout
    exact ⟨sd, by simp only [Within, hc, Bool.false_eq_true, if_false], fun v hv => hv⟩

/-- The start tokens `time.Parse` accepts under the layout `"1504"` are the
4-digit 24-hour clock texts. -/
theorem timeParse_isSome (s : String) : (timeParse ANSIC_FORMAT s).isSome = validClock s := by
  simp only [timeParse, ANSIC_FORMAT, validClock, ne_eq, not_true_eq_false, if_false]
  generalize s.toList = l
  rcases l with _ | ⟨a, _ | ⟨b, _ | ⟨c, _ | ⟨d, _ | ⟨e, l⟩⟩⟩⟩⟩
  · simp [getnum, isDigit]
  · by_cases ha : 48 ≤ a.toNat ∧ a.toNat ≤ 57 <;> simp [getnum, isDigit, digitAt, ha]
  · by_cases ha : 48 ≤ a.toNat ∧ a.toNat ≤ 57 <;> by_cases hb : 48 ≤ b.toNat ∧ b.toNat ≤ 57 <;>
      simp [getnum, isDigit, digitAt, ha, hb]
  · by_cases ha : 48 ≤ a.toNat ∧ a.toNat ≤ 57 <;> by_cases hb : 48 ≤ b.toNat ∧ b.toNat ≤ 57 <;>
      by_cases hc : 48 ≤ c.toNat ∧ c.toNat ≤ 57 <;>
      simp [getnum, isDigit, digitAt, ha, hb, hc]
  · by_cases ha : 48 ≤ a.toNat ∧ a.toNat ≤ 57 <;> by_cases hb : 48 ≤ b.toNat ∧ b.toNat ≤ 57 <;>
      by_cases hc : 48 ≤ c.toNat ∧ c.toNat ≤ 57 <;> by_cases hd : 48 ≤ d.toNat ∧ d.toNat ≤ 57 <;>
      simp [getnum, isDigit, digitAt, ha, hb, hc, hd]
    split_ifs <;> simp <;> omega
  · by_cases ha : 48 ≤ a.toNat ∧ a.toNat ≤ 57 <;> by_cases hb : 48 ≤ b.toNat ∧ b.toNat ≤ 57 <;>
      by_cases hc : 48 ≤ c.toNat ∧ c.toNat ≤ 57 <;> by_cases hd : 48 ≤ d.toNat ∧ d.toNat ≤ 57 <;>
      simp [getnum, isDigit, digitAt, ha, hb, hc, hd]

/-- A construction on a decoded prototype whose records all parse and that
declares a record succeeds, and materialises the week of the reference
instant, sorted. -/
theorem NewFromTime_ok (rt : GoRuntime) (jsonString description : String)
    (schedule : WeekSchedule) (r : Time)
    (hdec : rt.unmarshal jsonString = some (description, schedule))
    (hv : ValidProto rt schedule) (hn : 1 ≤ recordCount schedule) :
    ∃ sd, NewFromTime rt jsonString r = some (sd, none) ∧
      sd.intervals = rt.sortByStart (weekIntervals rt (weekAnchor rt r) schedule.days) ∧
      sd.Schedule = schedule := by
  have hne : ([] : List IntervalValue) ++ weekIntervals rt (weekAnchor rt r) schedule.days ≠ [] := by
    rw [List.nil_append, Ne, weekIntervals_eq_nil]
    omega
  obtain ⟨f, l, _, _, hok⟩ :=
    loadNew_ok rt ⟨description, schedule, jsonString, zeroTime, zeroTime, []⟩ r hv hne
  rw [NewFromTime_decoded rt jsonString description schedule r hdec]
  exact ⟨_, hok, by simp, rfl⟩

theorem shiftSchedule_built :
    NewFromTime exampleRT shiftDoc (inUTC monday2024) = some (shiftSchedule, none) := by decide

theorem zeroSchedule_built :
    NewFromTime exampleRT zeroDoc (inUTC monday2024) = some (zeroSchedule, none) := by decide

theorem overlapSchedule_built :
    NewFromTime exampleRT overlapDoc (inUTC monday2024) = some (overlapSchedule, none) := by decide

theorem head_min_start (l : List IntervalValue) (f : IntervalValue) (hs : SortedByStart l)
    (hf : l.head? = some f) : f ∈ l ∧ ∀ v ∈ l, f.start ≤ v.start := by
  cases l with
  | nil => simp at hf
  | cons x xs =>
    simp only [List.head?_cons, Option.some.injEq] at hf
    subst hf
    refine ⟨List.mem_cons_self _ _, ?_⟩
    intro v hv
    rcases List.mem_cons.mp hv with rfl | hv
    · exact le_refl _
    · exact List.rel_of_pairwise_cons hs hv

theorem sorted_adjacent (l : List IntervalValue) (hs : SortedByStart l) (i : Nat)
    (a b : IntervalValue) (ha : l.get? i = some a) (hb : l.get? (i + 1) = some b) :
    a.start ≤ b.start := by
  induction l generalizing i with
  | nil => simp at ha
  | cons x xs ih =>
    cases i with
    | zero =>
      simp only [List.get?_cons_zero, Option.some.injEq] at ha
      subst ha
      simp only [zero_add, List.get?_cons_succ] at hb
      exact List.rel_of_pairwise_cons hs (List.get?_mem hb)
    | succ j =>
      simp only [List.get?_cons_succ] at ha hb
      exact ih (List.Pairwise.of_cons hs) j ha hb

theorem first_is_min (sd : ScheduleDefinition) (hs : SortedByStart sd.intervals)
    (hf : sd.intervals.head?.map (fun v => v.start) = some sd.first) :
    (∃ v ∈ sd.intervals, v.start = sd.first) ∧ ∀ v ∈ sd.intervals, sd.first ≤ v.start := by
  cases hh : sd.intervals.head? with
  | none => simp [hh] at hf
  | some f =>
    simp only [hh, Option.map_some', Option.some.injEq] at hf
    obtain ⟨hmem, hmin⟩ := head_min_start sd.intervals f hs hh
    exact ⟨⟨f, hmem, hf⟩, fun v hv => hf ▸ hmin v hv⟩

/-- A record whose duration is at least one second yields an interval that
does not end before it starts. -/
theorem mkInterval_start_le_end (rt : GoRuntime) (epoch : Int) (r : IntervalJSONEncoding)
    (d : Int) (hd : rt.parseDuration r.Duration = some d) (h1 : Second ≤ d) :
    (mkInterval rt epoch r).start ≤ (mkInterval rt epoch r).end_ ∧
      Unix (mkInterval rt epoch r).start ≤ Unix (mkInterval rt epoch r).end_ := by
  have hr := rt.parseDuration_range _ _ hd
  simp only [mkInterval, hd, Option.getD_some, wrapInt64, Unix]
  simp only [Second] at h1 ⊢
  omega

/-! ## Further facts -/

theorem weekIntervals_mem (rt : GoRuntime) (epoch : Int) (days : List (List IntervalJSONEncoding))
    (v : IntervalValue) (h : v ∈ weekIntervals rt epoch days) :
    ∃ e, ∃ day ∈ days, ∃ r ∈ day, v = mkInterval rt e r := by
  induction days generalizing epoch with
  | nil => simp [weekIntervals] at h
  | cons day rest ih =>
    simp only [weekIntervals, List.mem_append, List.mem_map] at h
    rcases h with ⟨r, hr, hv⟩ | h
    · exact ⟨epoch, day, List.mem_cons_self _ _, r, hr, hv.symm⟩
    · obtain ⟨e, d, hd, r, hr, hv⟩ := ih _ h
      exact ⟨e, d, List.mem_cons_of_mem _ hd, r, hr, hv⟩

theorem weekIntervals_day_mem (rt : GoRuntime) (epoch : Int)
    (days : List (List IntervalJSONEncoding)) (k : Nat) (day : List IntervalJSONEncoding)
    (r : IntervalJSONEncoding) (hk : days.get? k = some day) (hr : r ∈ day) :
    mkInterval rt (epoch + (k : Int) * (24 * Hour)) r ∈ weekIntervals rt epoch days := by
  induction days generalizing epoch k with
  | nil => simp at hk
  | cons d rest ih =>
    cases k with
    | zero =>
      simp only [List.get?_cons_zero, Option.some.injEq] at hk
      subst hk
      simp only [weekIntervals, List.mem_append, List.mem_map, Nat.cast_zero, zero_mul, add_zero]
      exact Or.inl ⟨r, hr, rfl⟩
    | succ j =>
      simp only [List.get?_cons_succ] at hk
      have h := ih (epoch + 24 * Hour) j hk
      simp only [weekIntervals, List.mem_append]
      right
      have he : epoch + ((j + 1 : Nat) : Int) * (24 * Hour) =
          epoch + 24 * Hour + (j : Int) * (24 * Hour) := by
        push_cast
        ring
      rw [he]
      exact h

/-- Every interval a schedule holds was built by `loadNew` from a record of
its prototype, for some day anchor. -/
theorem Reachable_provenance (rt : GoRuntime) (sd : ScheduleDefinition) (h : Reachable rt sd) :
    ∀ v ∈ sd.intervals, ∃ e, ∃ day ∈ sd.Schedule.days, ∃ r ∈ day, v = mkInterval rt e r := by
  induction h with
  | construct jsonString t sd hnew =>
    obtain ⟨description, schedule, _, hload⟩ := NewFromTime_success rt jsonString t sd hnew
    obtain ⟨_, f, l, _, _, hsd⟩ := loadNew_success rt _ sd t hload
    subst hsd
    intro v hv
    dsimp only at hv ⊢
    rw [sortByStart_mem, List.nil_append] at hv
    exact weekIntervals_mem rt _ _ v hv
  | query sd t sd' b hreach hw ih =>
    obtain ⟨hvalid, hne, _⟩ := Reachable_inv rt sd hreach
    obtain ⟨_, hcase⟩ := Within_some rt sd sd' t b hw
    rcases hcase with ⟨_, e, hload⟩ | ⟨_, rfl⟩
    · have hne2 : sd.intervals ++ weekIntervals rt (weekAnchor rt t) sd.Schedule.days ≠ [] := by
        simp [hne]
      obtain ⟨f, l, _, _, hok⟩ := loadNew_ok rt sd t hvalid hne2
      rw [hok] at hload
      simp only [Option.some.injEq, Prod.mk.injEq] at hload
      obtain ⟨hsd, _⟩ := hload
      subst hsd
      intro v hv
      dsimp only at hv ⊢
      rw [sortByStart_mem, List.mem_append] at hv
      rcases hv with hv | hv
      · exact ih v hv
      · exact weekIntervals_mem rt _ _ v hv
    · exact ih

/-- The instant `time.Parse` returns for a valid start token `HHMM`. -/
theorem timeParse_value (s : String) (h : validClock s = true) :
    timeParse ANSIC_FORMAT s =
      some (clockBase + clockHour s * Hour + clockMinute s * Minute) := by
  simp only [timeParse, ANSIC_FORMAT, validClock, clockHour, clockMinute, ne_eq,
    not_true_eq_false, if_false] at h ⊢
  generalize s.toList = l at h ⊢
  rcases l with _ | ⟨a, _ | ⟨b, _ | ⟨c, _ | ⟨d, _ | ⟨e, l⟩⟩⟩⟩⟩
  · simp at h
  · simp at h
  · simp at h
  · simp at h
  · simp only [Bool.and_eq_true, decide_eq_true_eq] at h
    obtain ⟨⟨⟨⟨⟨ha, hb⟩, hc⟩, hd⟩, hh⟩, hm⟩ := h
    have hh' : ¬ 24 ≤ (a.toNat - 48) * 10 + (b.toNat - 48) := by omega
    have hm' : ¬ 60 ≤ (c.toNat - 48) * 10 + (d.toNat - 48) := by omega
    simp [getnum, isDigit, digitAt, ha, hb, hc, hd, hh', hm']
  · simp at h

/-- A clock instant lies within the day that starts at `clockBase`. -/
theorem timeParse_bounds (s : String) (c : Int) (h : timeParse ANSIC_FORMAT s = some c) :
    clockBase ≤ c ∧ c < clockBase + Day := by
  have hv : validClock s = true := by
    rw [← timeParse_isSome, h]
    rfl
  rw [timeParse_value s hv] at h
  simp only [Option.some.injEq] at h
  subst h
  have hH : clockHour s < 24 ∧ 0 ≤ clockHour s ∧ clockMinute s < 60 ∧ 0 ≤ clockMinute s := by
    simp only [validClock, clockHour, clockMinute] at hv ⊢
    generalize s.toList = l at hv ⊢
    rcases l with _ | ⟨a, _ | ⟨b, _ | ⟨c, _ | ⟨d, _ | ⟨e, l⟩⟩⟩⟩⟩
    · simp at hv
    · simp at hv
    · simp at hv
    · simp at hv
    · simp only [Bool.and_eq_true, decide_eq_true_eq] at hv
      simp only [digitAt, List.get?_cons_zero, List.get?_cons_succ]
      omega
    · simp at hv
  simp only [Day, Hour, Minute, Second]
  omega

/-- The two ways `Within` runs in a state a schedule can be in: without a
refresh the state stays; with one, the week of `t` joins the intervals held
and the prototype stays. -/
theorem Reachable_Within_cases (rt : GoRuntime) (sd : ScheduleDefinition) (t : Time)
    (h : Reachable rt sd) :
    (¬ (sd.last < t.ns ∨ t.ns < sd.first) ∧
      Within rt sd t = some (sd, withinLoop t.ns sd.intervals)) ∨
    ((sd.last < t.ns ∨ t.ns < sd.first) ∧
      ∃ sd', Within rt sd t = some (sd', withinLoop t.ns sd'.intervals) ∧
        sd'.Schedule = sd.Schedule ∧
        ∀ v, v ∈ sd'.intervals ↔
          v ∈ sd.intervals ∨ v ∈ weekIntervals rt (weekAnchor rt t) sd.Schedule.days) := by
  by_cases hout : sd.last < t.ns ∨ t.ns < sd.first
  · right
    have hc : (After t.ns sd.last || Before t.ns sd.first) = true := by
      simpa [After, Before] using hout
    obtain ⟨hv, hne, _⟩ := Reachable_inv rt sd h
    have hne2 : sd.intervals ++ weekIntervals rt (weekAnchor rt t) sd.Schedule.days ≠ [] := by
      simp [hne]
    obtain ⟨f, l, _, _, hok⟩ := loadNew_ok rt sd t hv hne2
    refine ⟨hout,
      { sd with
        intervals := rt.sortByStart
          (sd.intervals ++ weekIntervals rt (weekAnchor rt t) sd.Schedule.days),
        first := f.start, last := l.end_ },
      by simp only [Within, hc, if_true, hok], rfl, ?_⟩
    intro v
    rw [sortByStart_mem, List.mem_append]
  · left
    have hc : (After t.ns sd.last || Before t.ns sd.first) = false := by
      simpa [After, Before] using hout
    exact ⟨hout, by simp only [Within, hc, Bool.false_eq_true, if_false]⟩

/-- A list that is a rearrangement of two entries is one of the two orders. -/
theorem perm_pair (l : List IntervalValue) (a b : IntervalValue) (h : l.Perm [a, b]) :
    l = [a, b] ∨ l = [b, a] := by
  have hlen := h.length_eq
  match l, hlen, h with
  | [x, y], _, h =>
    have hx : x ∈ [a, b] := h.subset (List.mem_cons_self _ _)
    simp only [List.mem_cons, List.mem_singleton, List.not_mem_nil, or_false] at hx
    rcases hx with rfl | rfl
    · have hy := List.perm_singleton.mp ((List.perm_cons x).mp h)
      left
      rw [List.cons.injEq] at hy
      rw [hy.1]
    · have h2 : [x, y].Perm [x, a] := h.trans (List.Perm.swap x a [])
      have hy := List.perm_singleton.mp ((List.perm_cons x).mp h2)
      right
      rw [List.cons.injEq] at hy
      rw [hy.1]

/-! ## The claims -/

/-- C1. `Within(t)` returns `true` exactly when, in the materialised list as it
stands after any refresh the call made, some interval `v` has (`t` after
`v.start` or in the same second) and (`t` before `v.end` or in the same
second), and `false` otherwise; that test is the comparison of whole seconds
`Unix v.start ≤ Unix t ≤ Unix v.end`, so the sub-second part of `t` plays no
role.  The call returns on every schedule except the one that holds no
interval, declares no record and is queried outside `[first, last]`, where
the refresh panics. -/
theorem Within_iff_covering (rt : GoRuntime) (sd : ScheduleDefinition) (t : Time) :
    (Within rt sd t = none ↔
      (sd.last < t.ns ∨ t.ns < sd.first) ∧ sd.intervals = [] ∧ recordCount sd.Schedule = 0) ∧
    ∀ sd' b, Within rt sd t = some (sd', b) →
      (b = true ↔ ∃ v ∈ sd'.intervals,
        (v.start < t.ns ∨ Unix t.ns = Unix v.start) ∧ (t.ns < v.end_ ∨ Unix t.ns = Unix v.end_)) ∧
      (b = true ↔ ∃ v ∈ sd'.intervals, Unix v.start ≤ Unix t.ns ∧ Unix t.ns ≤ Unix v.end_) := by
  refine ⟨Within_eq_none_iff rt sd t, ?_⟩
  intro sd' b h
  obtain ⟨hb, _⟩ := Within_some rt sd sd' t b h
  rw [hb, withinLoop_iff]
  constructor
  · simp only [covers_iff]
  · simp only [covers_iff_unix]

theorem Within_iff_covering_witness :
    Within exampleRT shiftSchedule (inUTC (monday2024 + 8 * Hour + 1)) = some (shiftSchedule, true) ∧
    ∃ v ∈ shiftSchedule.intervals,
      Unix v.start ≤ Unix (monday2024 + 8 * Hour + 1) ∧
        Unix (monday2024 + 8 * Hour + 1) ≤ Unix v.end_ :=
  ⟨by decide,
   ((Within_iff_covering exampleRT shiftSchedule (inUTC (monday2024 + 8 * Hour + 1))).2
      shiftSchedule true (by decide)).2.mp rfl⟩

/-- C2 (the code departs from the claim). A schedule built from `shiftDoc`
(Monday 08:00 for 8h) in the week of January 1, 2024 and queried first at
Monday 10:00 two weeks later answers `false` at Monday 10:00 of the week in
between, while a schedule built from the same document at that instant
answers `true`: the answer depends on the reference instant and on the
earlier queries. -/
theorem Within_answer_depends_on_earlier_queries :
    (session exampleRT shiftDoc (inUTC monday2024)
        [inUTC (monday2024 + 14 * Day + 10 * Hour), inUTC (monday2024 + 7 * Day + 10 * Hour)]).map Prod.snd =
      some [true, false] ∧
    (session exampleRT shiftDoc (inUTC (monday2024 + 7 * Day + 10 * Hour))
        [inUTC (monday2024 + 7 * Day + 10 * Hour)]).map Prod.snd = some [true] := by
  decide

/-- C3 (the code departs from the claim). After a `Within` call that
re-materialises, the list holds the intervals it held before together with
those of the week of `t`: for `shiftDoc` (one record) built in the week of
January 1, 2024, a query two weeks later leaves two entries, the first of
them the interval of the first week, and a query on the Sunday of the first
week leaves the interval of that week twice. -/
theorem Within_refresh_keeps_earlier_intervals :
    (session exampleRT shiftDoc (inUTC monday2024) [inUTC (monday2024 + 14 * Day + 10 * Hour)]).map
        (fun r => r.1.intervals) =
      some [⟨monday2024 + 8 * Hour, monday2024 + 16 * Hour - Second, "day"⟩,
            ⟨monday2024 + 14 * Day + 8 * Hour, monday2024 + 14 * Day + 16 * Hour - Second,
              "day"⟩] ∧
    (session exampleRT shiftDoc (inUTC monday2024) [inUTC (monday2024 + 6 * Day + 10 * Hour)]).map
        (fun r => r.1.intervals) =
      some [⟨monday2024 + 8 * Hour, monday2024 + 16 * Hour - Second, "day"⟩,
            ⟨monday2024 + 8 * Hour, monday2024 + 16 * Hour - Second, "day"⟩] := by
  decide

/-- C4. For a definition that decodes, whose records all parse and that
declares `N ≥ 1` records over the seven days, `NewFromTime` at any reference
instant returns a schedule, without an error, whose materialised list has
exactly `N` entries; a second such definition with a different record total,
built at the same instant, yields a different interval count. -/
theorem NewFromTime_interval_count (rt : GoRuntime) (jsonString description : String)
    (schedule : WeekSchedule) (r : Time)
    (hdec : rt.unmarshal jsonString = some (description, schedule))
    (hv : ValidProto rt schedule) (hn : 1 ≤ recordCount schedule) :
    ∃ sd, NewFromTime rt jsonString r = some (sd, none) ∧
      sd.intervals.length = recordCount schedule ∧
      ∀ jsonString2 description2 schedule2,
        rt.unmarshal jsonString2 = some (description2, schedule2) →
        ValidProto rt schedule2 → 1 ≤ recordCount schedule2 →
        recordCount schedule2 ≠ recordCount schedule →
        ∃ sd2, NewFromTime rt jsonString2 r = some (sd2, none) ∧
          sd2.intervals.length ≠ sd.intervals.length := by
  obtain ⟨sd, hsd, hiv, _⟩ := NewFromTime_ok rt jsonString description schedule r hdec hv hn
  have hlen : sd.intervals.length = recordCount schedule := by
    rw [hiv, sortByStart_length, weekIntervals_length]
  refine ⟨sd, hsd, hlen, ?_⟩
  intro jsonString2 description2 schedule2 hdec2 hv2 hn2 hdiff
  obtain ⟨sd2, hsd2, hiv2, _⟩ :=
    NewFromTime_ok rt jsonString2 description2 schedule2 r hdec2 hv2 hn2
  refine ⟨sd2, hsd2, ?_⟩
  rw [hlen, hiv2, sortByStart_length, weekIntervals_length]
  exact hdiff

theorem NewFromTime_interval_count_witness :
    ∃ sd, NewFromTime exampleRT overlapDoc (inUTC (monday2024 + 3 * Day + 5)) = some (sd, none) ∧
      sd.intervals.length = 3 := by
  obtain ⟨sd, h1, h2, _⟩ :=
    NewFromTime_interval_count exampleRT overlapDoc "overlap" overlapProto
      (inUTC (monday2024 + 3 * Day + 5)) (by decide) (by decide) (by decide)
  exact ⟨sd, h1, h2⟩

/-- C5 (the code departs from the claim). `loadNew` sets `last` to the end of
the entry with the latest start, not to the latest end: for `nestedDoc`
(Monday 08:00 for 48h, Tuesday 08:00 for 1h) `last` is Tuesday 08:59:59 while
the Monday interval ends on Wednesday at 07:59:59. -/
theorem last_below_latest_end :
    (session exampleRT nestedDoc (inUTC monday2024) []).map
        (fun r => (r.1.last, r.1.intervals.map (fun v => v.end_))) =
      some (monday2024 + Day + 9 * Hour - Second,
            [monday2024 + 2 * Day + 8 * Hour - Second, monday2024 + Day + 9 * Hour - Second]) ∧
    monday2024 + Day + 9 * Hour - Second < monday2024 + 2 * Day + 8 * Hour - Second := by
  decide

/-- C6. After every materialisation that ends without an error `first` is the
least start among the materialised intervals: it is the start of one of them
and no interval starts before it.  This holds for the state any successful
`loadNew` leaves, hence for the schedule `NewFromTime` returns and for the
state after every `Within` call on it, with or without a refresh. -/
theorem first_eq_min_start (rt : GoRuntime) :
    (∀ sd t sd', loadNew rt sd t = some (sd', none) →
      (∃ v ∈ sd'.intervals, v.start = sd'.first) ∧ ∀ v ∈ sd'.intervals, sd'.first ≤ v.start) ∧
    (∀ sd, Reachable rt sd →
      (∃ v ∈ sd.intervals, v.start = sd.first) ∧ ∀ v ∈ sd.intervals, sd.first ≤ v.start) := by
  constructor
  · intro sd t sd' h
    obtain ⟨_, f, l, hf, _, hsd⟩ := loadNew_success rt sd sd' t h
    subst hsd
    exact first_is_min _ (sortByStart_sorted rt _) (by dsimp only; rw [hf]; rfl)
  · intro sd h
    obtain ⟨_, _, hs, hf, _⟩ := Reachable_inv rt sd h
    exact first_is_min sd hs hf

theorem first_eq_min_start_witness :
    ∃ v ∈ overlapSchedule.intervals, v.start = overlapSchedule.first :=
  ((first_eq_min_start exampleRT).2 overlapSchedule
    (Reachable.construct overlapDoc (inUTC monday2024) overlapSchedule overlapSchedule_built)).1

/-- C7. The materialised list is in ascending order of start in every state a
schedule can be in, that is after a `NewFromTime` that returned no error and
after every later `Within` call, with or without a refresh: any two entries
in list order, and in particular any two adjacent entries, have
`start` of the earlier `≤ start` of the later. -/
theorem Reachable_sorted (rt : GoRuntime) (sd : ScheduleDefinition) (h : Reachable rt sd) :
    SortedByStart sd.intervals ∧
    ∀ i a b, sd.intervals.get? i = some a → sd.intervals.get? (i + 1) = some b →
      a.start ≤ b.start := by
  obtain ⟨_, _, hs, _⟩ := Reachable_inv rt sd h
  exact ⟨hs, fun i a b ha hb => sorted_adjacent sd.intervals hs i a b ha hb⟩

theorem Reachable_sorted_witness : SortedByStart overlapSchedule.intervals :=
  (Reachable_sorted exampleRT overlapSchedule
    (Reachable.construct overlapDoc (inUTC monday2024) overlapSchedule overlapSchedule_built)).1

/-- C8 as stated fails: `zeroDoc` declares one Monday 08:00 record of duration
`0s`; it is built without an error, its interval starts at Monday 08:00 and
ends a second earlier, and `Within` at that start answers `false`. -/
theorem Within_start_false_for_zero_duration :
    NewFromTime exampleRT zeroDoc (inUTC monday2024) = some (zeroSchedule, none) ∧
    (⟨monday2024 + 8 * Hour, monday2024 + 8 * Hour - Second, "none"⟩ : IntervalValue) ∈
      zeroSchedule.intervals ∧
    (Within exampleRT zeroSchedule (inUTC (monday2024 + 8 * Hour))).map Prod.snd = some false := by
  decide

/-- C8, amended. For every schedule built without an error, in the state
after any sequence of `Within` calls, and every materialised interval `v`
whose end does not lie in an earlier second than its start, `Within(v.start)`
returns `true` and `Within(v.end)` returns `true`, in whichever location the
two instants are passed. -/
theorem Within_boundaries (rt : GoRuntime) (sd : ScheduleDefinition) (v : IntervalValue)
    (loc : Location)
    (h : Reachable rt sd) (hv : v ∈ sd.intervals) (hle : Unix v.start ≤ Unix v.end_) :
    (∃ sd', Within rt sd ⟨v.start, loc⟩ = some (sd', true)) ∧
    (∃ sd', Within rt sd ⟨v.end_, loc⟩ = some (sd', true)) := by
  constructor
  · obtain ⟨sd', hw, hkeep⟩ := Reachable_Within rt sd ⟨v.start, loc⟩ h
    have hb : withinLoop v.start sd'.intervals = true :=
      (withinLoop_iff _ _).mpr ⟨v, hkeep v hv, (covers_iff_unix _ _).mpr ⟨le_refl _, hle⟩⟩
    rw [hb] at hw
    exact ⟨sd', hw⟩
  · obtain ⟨sd', hw, hkeep⟩ := Reachable_Within rt sd ⟨v.end_, loc⟩ h
    have hb : withinLoop v.end_ sd'.intervals = true :=
      (withinLoop_iff _ _).mpr ⟨v, hkeep v hv, (covers_iff_unix _ _).mpr ⟨hle, le_refl _⟩⟩
    rw [hb] at hw
    exact ⟨sd', hw⟩

theorem Within_boundaries_witness :
    (∃ sd', Within exampleRT overlapSchedule (inUTC (monday2024 + 10 * Hour)) = some (sd', true)) ∧
    (∃ sd', Within exampleRT overlapSchedule (inUTC (monday2024 + 18 * Hour - Second)) =
      some (sd', true)) :=
  Within_boundaries exampleRT overlapSchedule
    ⟨monday2024 + 10 * Hour, monday2024 + 18 * Hour - Second, "late"⟩ (Location.fixed 0)
    (Reachable.construct overlapDoc (inUTC monday2024) overlapSchedule overlapSchedule_built)
    (by decide) (by decide)

/-- C9 as stated fails: for `overnightDoc` the two Tuesday shifts both contain
Tuesday 11:00, and so does the Monday night shift that runs into Tuesday, so
three entries are returned; and for `overlapDoc`, once a `Within` call on the
Sunday of the week has refreshed the schedule, Monday 11:00 returns each of
the two Monday shifts twice. -/
theorem MatchingIntervals_more_than_two :
    (session exampleRT overnightDoc (inUTC monday2024) []).map
        (fun r => (MatchingIntervals r.1 (inUTC (monday2024 + Day + 11 * Hour))).map
          (fun v => v.label)) =
      some ["night", "early", "late"] ∧
    (session exampleRT overlapDoc (inUTC monday2024)
        [inUTC (monday2024 + 6 * Day + 10 * Hour)]).map
        (fun r => (MatchingIntervals r.1 (inUTC (monday2024 + 11 * Hour))).map
          (fun v => v.label)) =
      some ["early", "early", "late", "late"] := by
  decide

/-- C9, amended. For every schedule and instant `t`, `MatchingIntervals(t)`
is the materialised list with the entries that do not contain `t` struck out:
it holds exactly the entries `v` with `Unix v.start ≤ Unix t ≤ Unix v.end`,
each entry once and in the order of the list, so in ascending order of start
when the list is.  On a schedule as `NewFromTime` returns it these entries
are the declared intervals of the reference week that contain `t`, in
ascending order of start; when exactly two declared intervals `a` and `b`
contain `t`, exactly these two are returned. -/
theorem MatchingIntervals_eq_filter (rt : GoRuntime) (sd : ScheduleDefinition) (t : Time) :
    MatchingIntervals sd t = sd.intervals.filter (covers t.ns) ∧
    (∀ v, v ∈ MatchingIntervals sd t ↔
      v ∈ sd.intervals ∧ Unix v.start ≤ Unix t.ns ∧ Unix t.ns ≤ Unix v.end_) ∧
    (MatchingIntervals sd t).Sublist sd.intervals ∧
    (SortedByStart sd.intervals → SortedByStart (MatchingIntervals sd t)) ∧
    (∀ jsonString description schedule r,
      rt.unmarshal jsonString = some (description, schedule) →
      NewFromTime rt jsonString r = some (sd, none) →
      (MatchingIntervals sd t).Perm
        ((weekIntervals rt (weekAnchor rt r) schedule.days).filter (covers t.ns)) ∧
      SortedByStart (MatchingIntervals sd t) ∧
      ∀ a b, (weekIntervals rt (weekAnchor rt r) schedule.days).filter (covers t.ns) = [a, b] →
        MatchingIntervals sd t = [a, b] ∨ MatchingIntervals sd t = [b, a]) := by
  have heq : MatchingIntervals sd t = sd.intervals.filter (covers t.ns) := by
    simp [MatchingIntervals, matchingLoop_eq]
  have hsorted : SortedByStart sd.intervals → SortedByStart (MatchingIntervals sd t) := by
    intro hs
    rw [heq]
    exact List.Pairwise.sublist (List.filter_sublist _) hs
  refine ⟨heq, ?_, ?_, hsorted, ?_⟩
  · intro v
    rw [heq, List.mem_filter, covers_iff_unix]
  · rw [heq]
    exact List.filter_sublist _
  · intro jsonString description schedule r hdec hnew
    obtain ⟨description', schedule', hdec', hload⟩ := NewFromTime_success rt jsonString r sd hnew
    rw [hdec] at hdec'
    simp only [Option.some.injEq, Prod.mk.injEq] at hdec'
    obtain ⟨hd, hs⟩ := hdec'
    subst hd
    subst hs
    obtain ⟨_, f, l, _, _, hsd⟩ := loadNew_success rt _ sd r hload
    have hiv : sd.intervals = rt.sortByStart (weekIntervals rt (weekAnchor rt r) schedule.days) := by
      rw [hsd]
      simp
    have hperm : (MatchingIntervals sd t).Perm
        ((weekIntervals rt (weekAnchor rt r) schedule.days).filter (covers t.ns)) := by
      rw [heq, hiv]
      exact (rt.sortByStart_perm _).filter _
    refine ⟨hperm, hsorted (by rw [hiv]; exact sortByStart_sorted rt _), ?_⟩
    intro a b hab
    rw [hab] at hperm
    exact perm_pair _ a b hperm

theorem MatchingIntervals_eq_filter_witness :
    MatchingIntervals overlapSchedule (inUTC (monday2024 + 11 * Hour)) =
        [⟨monday2024 + 8 * Hour, monday2024 + 16 * Hour - Second, "early"⟩,
         ⟨monday2024 + 10 * Hour, monday2024 + 18 * Hour - Second, "late"⟩] ∨
      MatchingIntervals overlapSchedule (inUTC (monday2024 + 11 * Hour)) =
        [⟨monday2024 + 10 * Hour, monday2024 + 18 * Hour - Second, "late"⟩,
         ⟨monday2024 + 8 * Hour, monday2024 + 16 * Hour - Second, "early"⟩] :=
  ((MatchingIntervals_eq_filter exampleRT overlapSchedule
      (inUTC (monday2024 + 11 * Hour))).2.2.2.2
    overlapDoc "overlap" overlapProto (inUTC monday2024) (by decide) overlapSchedule_built).2.2
    ⟨monday2024 + 8 * Hour, monday2024 + 16 * Hour - Second, "early"⟩
    ⟨monday2024 + 10 * Hour, monday2024 + 18 * Hour - Second, "late"⟩ (by decide)

/-- C10. For a definition that decodes: if some record has a start token that
is not a 4-digit 24-hour clock text, or a duration token the duration parser
rejects, `NewFromTime` returns an error at every reference instant; if every
record has a valid start token and an accepted duration token and at least
one record is declared, it returns no error. -/
theorem NewFromTime_error_iff_malformed (rt : GoRuntime) (jsonString description : String)
    (schedule : WeekSchedule) (r : Time)
    (hdec : rt.unmarshal jsonString = some (description, schedule)) :
    ((∃ day ∈ schedule.days, ∃ x ∈ day,
        validClock x.Start = false ∨ rt.parseDuration x.Duration = none) →
      ∃ sd e, NewFromTime rt jsonString r = some (sd, some e)) ∧
    ((∀ day ∈ schedule.days, ∀ x ∈ day,
        validClock x.Start = true ∧ rt.parseDuration x.Duration ≠ none) →
      1 ≤ recordCount schedule →
      ∃ sd, NewFromTime rt jsonString r = some (sd, none)) := by
  constructor
  · rintro ⟨day, hday, x, hx, hbad⟩
    have hrec : recordOK rt x = false := by
      rcases hbad with hs | hd
      · simp [recordOK, timeParse_isSome, hs]
      · simp [recordOK, hd]
    obtain ⟨ivs, e, he⟩ :=
      loadNew_err rt ⟨description, schedule, jsonString, zeroTime, zeroTime, []⟩ r
        ⟨day, hday, x, hx, hrec⟩
    rw [NewFromTime_decoded rt jsonString description schedule r hdec]
    exact ⟨_, e, he⟩
  · intro hall hn
    have hv : ValidProto rt schedule := by
      intro day hday x hx
      obtain ⟨hs, hd⟩ := hall day hday x hx
      simp only [recordOK, timeParse_isSome, hs, Bool.true_and]
      exact Option.isSome_iff_ne_none.mpr hd
    obtain ⟨sd, hsd, _⟩ := NewFromTime_ok rt jsonString description schedule r hdec hv hn
    exact ⟨sd, hsd⟩

theorem NewFromTime_error_iff_malformed_witness :
    ∃ sd e, NewFromTime exampleRT malformedDoc (inUTC (monday2024 + 5 * Day)) = some (sd, some e) :=
  (NewFromTime_error_iff_malformed exampleRT malformedDoc "malformed" malformedProto
      (inUTC (monday2024 + 5 * Day)) (by decide)).1
    ⟨[⟨"0800", "8h", "day"⟩, ⟨"1000", "8", "late"⟩], by decide,
     ⟨"1000", "8", "late"⟩, by decide, Or.inr (by decide)⟩

/-- C11 (the code departs from the claim). When a record fails to parse, the
intervals built from the records before it stay in the schedule: for
`malformedDoc` (Monday 08:00 for 8h, then a record with the duration token
`8`) `NewFromTime` returns the duration error together with a schedule that
holds the interval of the first record. -/
theorem NewFromTime_error_keeps_earlier_intervals :
    (NewFromTime exampleRT malformedDoc (inUTC monday2024)).map (fun r => (r.2, r.1.intervals)) =
      some (some LoadError.durationToken,
        [⟨monday2024 + 8 * Hour, monday2024 + 16 * Hour - Second, "day"⟩]) := by
  decide

/-- C12 as stated fails: the record of `zeroDoc` (Monday 08:00, duration `0s`)
parses, the schedule is built without an error, and its interval has
`start ≤ end` false. -/
theorem zero_duration_ends_before_start :
    (NewFromTime exampleRT zeroDoc (inUTC monday2024)).map
        (fun r => (r.2, r.1.intervals.map (fun v => decide (v.start ≤ v.end_)))) =
      some (none, [false]) := by
  decide

/-- C12, amended. For every definition whose records parse and all have a
duration of at least one second, and every reference instant, every interval
of the schedule built (and of every state later `Within` calls lead to)
satisfies `start ≤ end`. -/
theorem start_le_end_of_durations (rt : GoRuntime) (sd : ScheduleDefinition)
    (h : Reachable rt sd)
    (hd : ∀ day ∈ sd.Schedule.days, ∀ r ∈ day, atLeastSecond rt r = true) :
    ∀ v ∈ sd.intervals, v.start ≤ v.end_ := by
  intro v hv
  obtain ⟨e, day, hday, r, hr, hmk⟩ := Reachable_provenance rt sd h v hv
  have hr1 := hd day hday r hr
  simp only [atLeastSecond] at hr1
  cases hp : rt.parseDuration r.Duration with
  | none => simp [hp] at hr1
  | some d =>
    simp only [hp, decide_eq_true_eq] at hr1
    rw [hmk]
    exact (mkInterval_start_le_end rt e r d hp hr1).1

theorem start_le_end_of_durations_witness :
    (⟨monday2024 + 10 * Hour, monday2024 + 18 * Hour - Second, "late"⟩ : IntervalValue).start ≤
      (⟨monday2024 + 10 * Hour, monday2024 + 18 * Hour - Second, "late"⟩ : IntervalValue).end_ :=
  start_le_end_of_durations exampleRT overlapSchedule
    (Reachable.construct overlapDoc (inUTC monday2024) overlapSchedule overlapSchedule_built)
    (by decide) ⟨monday2024 + 10 * Hour, monday2024 + 18 * Hour - Second, "late"⟩ (by decide)

/-- C13 as stated fails: `emptyDoc` decodes to a definition without any
record; `NewFromTime` on it returns neither a schedule nor an error, it stops
in the index panic of `sd.intervals[0]`. -/
theorem NewFromTime_empty_definition_panics :
    exampleRT.unmarshal emptyDoc = some ("empty", emptyProto) ∧
    recordCount emptyProto = 0 ∧
    NewFromTime exampleRT emptyDoc (inUTC monday2024) = none := by
  decide

/-- C13, amended. The index accesses that set `first` and `last` are in range
exactly when the list is not empty after the record loop: `loadNew` panics if
and only if the schedule holds no interval and the prototype declares none;
`NewFromTime` on a definition that decodes panics if and only if the
definition declares no record, and reports no error in that case; a refresh
that `Within` triggers on a schedule built without an error never panics. -/
theorem first_last_index_in_range (rt : GoRuntime) :
    (∀ sd t, loadNew rt sd t = none ↔ sd.intervals = [] ∧ recordCount sd.Schedule = 0) ∧
    (∀ jsonString description schedule r,
      rt.unmarshal jsonString = some (description, schedule) →
      (NewFromTime rt jsonString r = none ↔ recordCount schedule = 0)) ∧
    (∀ sd t, Reachable rt sd → Within rt sd t ≠ none) := by
  refine ⟨fun sd t => loadNew_eq_none_iff rt sd t, ?_, ?_⟩
  · intro jsonString description schedule r hdec
    rw [NewFromTime_decoded rt jsonString description schedule r hdec, loadNew_eq_none_iff]
    simp
  · intro sd t h
    obtain ⟨sd', hw, _⟩ := Reachable_Within rt sd t h
    rw [hw]
    simp

theorem first_last_index_in_range_witness :
    Within exampleRT overlapSchedule (inUTC (monday2024 + 30 * Day)) ≠ none :=
  (first_last_index_in_range exampleRT).2.2 overlapSchedule (inUTC (monday2024 + 30 * Day))
    (Reachable.construct overlapDoc (inUTC monday2024) overlapSchedule overlapSchedule_built)

/-- C14. `MatchingIntervals(t)` leaves the receiver as it was, for every
schedule and every `t`, also outside `[first, last]`: the state after the call
is the state before it, so the materialised list, `first` and `last` are
unchanged; the slice returned is read off the list held before the call, and
depends on nothing else in the schedule. -/
theorem MatchingIntervals_frame (sd : ScheduleDefinition) (t : Time) :
    (MatchingIntervals.call sd t).1 = sd ∧
    (MatchingIntervals.call sd t).1.intervals = sd.intervals ∧
    (MatchingIntervals.call sd t).1.first = sd.first ∧
    (MatchingIntervals.call sd t).1.last = sd.last ∧
    (MatchingIntervals.call sd t).2 = MatchingIntervals sd t ∧
    (MatchingIntervals.call sd t).2 = sd.intervals.filter (covers t.ns) ∧
    ∀ sd2 : ScheduleDefinition, sd2.intervals = sd.intervals →
      MatchingIntervals sd2 t = MatchingIntervals sd t := by
  refine ⟨rfl, rfl, rfl, rfl, rfl, ?_, ?_⟩
  · simp [MatchingIntervals.call, matchingLoop_eq]
  · intro sd2 h
    simp [MatchingIntervals, h]

theorem MatchingIntervals_frame_witness :
    (MatchingIntervals.call shiftSchedule (inUTC (monday2024 + 7 * Day + 10 * Hour))).1 =
      shiftSchedule ∧
    MatchingIntervals { shiftSchedule with first := 0, last := 0 }
        (inUTC (monday2024 + 7 * Day + 10 * Hour)) =
      MatchingIntervals shiftSchedule (inUTC (monday2024 + 7 * Day + 10 * Hour)) :=
  ⟨(MatchingIntervals_frame shiftSchedule (inUTC (monday2024 + 7 * Day + 10 * Hour))).1,
   (MatchingIntervals_frame shiftSchedule (inUTC (monday2024 + 7 * Day + 10 * Hour))).2.2.2.2.2.2
     { shiftSchedule with first := 0, last := 0 } rfl⟩

/-- C15 as stated fails: under the sort of Go 1.6 to Go 1.18 the seven Monday
records of `tiesDoc`, declared with the starts 10:00 `a`, 10:00 `b`, 11:00,
12:00, 13:00, 14:00 and 09:00 `g`, are materialised with `b` before `a`: the
gap-6 pass swaps `g` with `a`, and insertion sort then stops `a` behind `b`. -/
theorem equal_starts_out_of_declaration_order :
    (NewFromTime legacyRT tiesDoc (inUTC monday2024)).map
        (fun r => (r.2, r.1.intervals.map (fun v => (v.start, v.label)))) =
      some (none,
        [(monday2024 + 9 * Hour, "g"), (monday2024 + 10 * Hour, "b"),
         (monday2024 + 10 * Hour, "a"), (monday2024 + 11 * Hour, "c"),
         (monday2024 + 12 * Hour, "d"), (monday2024 + 13 * Hour, "e"),
         (monday2024 + 14 * Hour, "f")]) := by
  decide

/-- C15, amended. For every definition that decodes, whose records parse and
that declares a record, the materialised list is a rearrangement of the
intervals in declaration order (Monday to Sunday, within a day as listed) and
is in ascending order of start; nothing is fixed about the relative order of
intervals with equal start. -/
theorem materialized_sorted_permutation (rt : GoRuntime) (jsonString description : String)
    (schedule : WeekSchedule) (r : Time)
    (hdec : rt.unmarshal jsonString = some (description, schedule))
    (hv : ValidProto rt schedule) (hn : 1 ≤ recordCount schedule) :
    ∃ sd, NewFromTime rt jsonString r = some (sd, none) ∧
      sd.intervals.Perm (weekIntervals rt (weekAnchor rt r) schedule.days) ∧
      SortedByStart sd.intervals := by
  obtain ⟨sd, hsd, hiv, _⟩ := NewFromTime_ok rt jsonString description schedule r hdec hv hn
  refine ⟨sd, hsd, ?_, ?_⟩
  · rw [hiv]
    exact rt.sortByStart_perm _
  · rw [hiv]
    exact sortByStart_sorted rt _

theorem materialized_sorted_permutation_witness :
    ∃ sd, NewFromTime legacyRT tiesDoc (inUTC (monday2024 + 2 * Day)) = some (sd, none) ∧
      sd.intervals.Perm (weekIntervals legacyRT (weekAnchor legacyRT (inUTC (monday2024 + 2 * Day)))
        tiesProto.days) ∧
      SortedByStart sd.intervals :=
  materialized_sorted_permutation legacyRT tiesDoc "ties" tiesProto (inUTC (monday2024 + 2 * Day))
    (by decide) (by decide) (by decide)

/-- C16. For two records of one day of which the second starts where the
first start plus the first duration falls, the first interval ends exactly
one second before the second one starts, no instant `t` (whatever its
sub-second part) passes the containment test of both, and no call of
`MatchingIntervals` returns both. -/
theorem adjacent_records_do_not_overlap (rt : GoRuntime) (epoch : Int)
    (r1 r2 : IntervalJSONEncoding) (c1 c2 d1 : Int)
    (h1 : timeParse ANSIC_FORMAT r1.Start = some c1)
    (h2 : timeParse ANSIC_FORMAT r2.Start = some c2)
    (hd : rt.parseDuration r1.Duration = some d1) (hadj : c2 = c1 + d1) :
    (mkInterval rt epoch r1).end_ = (mkInterval rt epoch r2).start - Second ∧
    (∀ t, ¬ (covers t (mkInterval rt epoch r1) = true ∧
      covers t (mkInterval rt epoch r2) = true)) ∧
    (∀ sd t, ¬ (mkInterval rt epoch r1 ∈ MatchingIntervals sd t ∧
      mkInterval rt epoch r2 ∈ MatchingIntervals sd t)) := by
  have hb1 := timeParse_bounds r1.Start c1 h1
  have hb2 := timeParse_bounds r2.Start c2 h2
  have hend : (mkInterval rt epoch r1).end_ = (mkInterval rt epoch r2).start - Second := by
    simp only [mkInterval, h1, h2, hd, Option.getD_some, wrapInt64]
    simp only [Day, Hour, Minute, Second] at hb1 hb2 ⊢
    omega
  have hcov : ∀ t, ¬ (covers t (mkInterval rt epoch r1) = true ∧
      covers t (mkInterval rt epoch r2) = true) := by
    intro t
    rw [covers_iff_unix, covers_iff_unix, hend]
    simp only [Unix, Second]
    omega
  refine ⟨hend, hcov, ?_⟩
  intro sd t hboth
  have hfilter : MatchingIntervals sd t = sd.intervals.filter (covers t.ns) := by
    simp [MatchingIntervals, matchingLoop_eq]
  rw [hfilter, List.mem_filter, List.mem_filter] at hboth
  exact hcov t.ns ⟨hboth.1.2, hboth.2.2⟩

theorem adjacent_records_do_not_overlap_witness :
    (mkInterval exampleRT monday2024 ⟨"0800", "2h", "a"⟩).end_ =
      (mkInterval exampleRT monday2024 ⟨"1000", "1h", "b"⟩).start - Second :=
  (adjacent_records_do_not_overlap exampleRT monday2024 ⟨"0800", "2h", "a"⟩ ⟨"1000", "1h", "b"⟩
    (clockBase + 8 * Hour) (clockBase + 10 * Hour) (2 * Hour)
    (by decide) (by decide) (by decide) (by decide)).1

/-- C17 as stated fails: in a zone that moves its clocks forward at local
midnight (`midnightShift`: Sunday, November 4, 2018 has no 00:00) `time.Date`
for 00:00 of that Sunday gives Saturday 23:00, and the loop steps back from
there to Monday, October 29, 23:00 local time.  The anchor of the week is on
a Monday but is not its midnight, and the Monday 08:00 shift is materialised
from Tuesday, October 30, 07:00 local time. -/
theorem weekAnchor_not_midnight :
    sundayNoon.civilDay = 17839 ∧
    midnight midnightShift sundayNoon = 1541296800 * Second ∧
    midnightShift.dayOf (midnight midnightShift sundayNoon) = 17838 ∧
    midnightShift.clockOf (midnight midnightShift sundayNoon) = 23 * Hour ∧
    mondayLoop midnightShift 5 (midnight midnightShift sundayNoon) =
      some (1540864800 * Second) ∧
    weekAnchor (zoneRuntime exampleDocs midnightShift 6 midnightShift_loop_ends) sundayNoon =
      1540864800 * Second ∧
    Weekday midnightShift (1540864800 * Second) = Monday ∧
    midnightShift.dayOf (1540864800 * Second) = 17833 ∧
    midnightShift.clockOf (1540864800 * Second) = 23 * Hour ∧
    midnightShift.clockOf (1540864800 * Second) ≠ 0 ∧
    (NewFromTime (zoneRuntime exampleDocs midnightShift 6 midnightShift_loop_ends) shiftDoc
        sundayNoon).map (fun r => (r.2, r.1.intervals)) =
      some (none, [⟨1540893600 * Second, 1540922399 * Second, "day"⟩]) ∧
    midnightShift.dayOf (1540893600 * Second) = 17834 ∧
    midnightShift.clockOf (1540893600 * Second) = 7 * Hour := by
  decide

/-- C17, amended. For every reference instant `t` whose calendar day (the
date `t` shows in its own location) lies in a stretch, from 7 days before it
to 1 day after it, over which `time.Local` keeps one UTC offset `o` of at
most 24 hours, as every day does in a zone with a fixed offset:
the loop of `loadNew` ends after some `k ≤ 6` steps, with the same result for
every larger bound; the anchor it returns is 00:00:00 local time of a Monday,
`k` calendar days before the day of `t`; the loop starts from 00:00:00 local
time of the day of `t`, so the anchor is on or before that midnight and fewer
than 7 days before it. -/
theorem weekAnchor_monday_midnight (rt : GoRuntime) (t : Time) (o : Int)
    (hs : rt.Local.steady o ((t.civilDay - 7) * secondsPerDay)
      ((t.civilDay + 1) * secondsPerDay))
    (ho : -secondsPerDay ≤ o ∧ o ≤ secondsPerDay) :
    ∃ k : Nat, k ≤ 6 ∧
      mondayLoop rt.Local k (midnight rt.Local t) = some (weekAnchor rt t) ∧
      (∀ fuel, k ≤ fuel →
        mondayLoop rt.Local fuel (midnight rt.Local t) = some (weekAnchor rt t)) ∧
      Weekday rt.Local (weekAnchor rt t) = Monday ∧
      rt.Local.clockOf (weekAnchor rt t) = 0 ∧
      rt.Local.dayOf (weekAnchor rt t) = t.civilDay - k ∧
      rt.Local.clockOf (midnight rt.Local t) = 0 ∧
      rt.Local.dayOf (midnight rt.Local t) = t.civilDay ∧
      weekAnchor rt t = midnight rt.Local t - (k : Int) * Day ∧
      weekAnchor rt t ≤ midnight rt.Local t ∧
      midnight rt.Local t - weekAnchor rt t < 7 * Day := by
  have hK : 0 ≤ ((t.civilDay + 4) % 7 + 6) % 7 ∧ ((t.civilDay + 4) % 7 + 6) % 7 ≤ 6 := by omega
  have hcast : (((((t.civilDay + 4) % 7 + 6) % 7).toNat : Nat) : Int) =
      ((t.civilDay + 4) % 7 + 6) % 7 := by omega
  have hs0 := hs
  simp only [Location.steady, secondsPerDay] at hs0
  have ho0 := ho
  simp only [secondsPerDay] at ho0
  have hoffD : rt.Local.offsetAt (t.civilDay * secondsPerDay - o) = o := by
    apply hs
    · simp only [secondsPerDay]
      omega
    · simp only [secondsPerDay]
      omega
  have hoffD0 : rt.Local.offsetAt (t.civilDay * secondsPerDay) = o := by
    apply hs
    · simp only [secondsPerDay]
      omega
    · simp only [secondsPerDay]
      omega
  have hoffA : rt.Local.offsetAt
      ((t.civilDay - ((t.civilDay + 4) % 7 + 6) % 7) * secondsPerDay - o) = o := by
    apply hs
    · simp only [secondsPerDay]
      omega
    · simp only [secondsPerDay]
      omega
  have hmid : midnight rt.Local t = (t.civilDay * secondsPerDay - o) * Second := by
    simp only [midnight]
    rw [date_of_offset rt.Local _ o hoffD0 hoffD]
  have hloop := mondayLoop_steady rt.Local o t.civilDay hs ho
    (((t.civilDay + 4) % 7 + 6) % 7).toNat t.civilDay (by omega) (le_refl _) (by omega)
  rw [← hmid] at hloop
  have hA : weekAnchor rt t =
      ((t.civilDay - ((t.civilDay + 4) % 7 + 6) % 7) * secondsPerDay - o) * Second :=
    mondayLoop_unique _ _ _ _ _ _ (mondayLoop_fuel rt t) hloop
  refine ⟨(((t.civilDay + 4) % 7 + 6) % 7).toNat, by omega, ?_, ?_, ?_, ?_, ?_, ?_, ?_, ?_, ?_, ?_⟩
  · rw [hA]
    exact hloop
  · intro fuel hfuel
    obtain ⟨j, rfl⟩ := Nat.exists_eq_add_of_le hfuel
    rw [hA]
    exact mondayLoop_mono _ _ _ _ _ hloop
  · rw [hA]
    simp only [Weekday, dayOf_steady rt.Local o _ hoffA, Monday]
    omega
  · rw [hA]
    exact clockOf_steady rt.Local o _ hoffA
  · rw [hA, dayOf_steady rt.Local o _ hoffA, hcast]
  · rw [hmid]
    exact clockOf_steady rt.Local o _ hoffD
  · rw [hmid]
    exact dayOf_steady rt.Local o _ hoffD
  · rw [hA, hmid, hcast]
    simp only [secondsPerDay, Day, Hour, Minute, Second]
    omega
  · rw [hA, hmid]
    simp only [secondsPerDay, Second]
    omega
  · rw [hA, hmid]
    simp only [secondsPerDay, Day, Hour, Minute, Second]
    omega

theorem weekAnchor_monday_midnight_witness :
    (-secondsPerDay ≤ (18000 : Int) ∧ (18000 : Int) ≤ secondsPerDay) ∧
    (inUTC (1704657600 * Second)).civilDay = 19729 ∧
    weekAnchor (exampleRuntime exampleDocs 18000) (inUTC (1704657600 * Second)) =
      1704049200 * Second ∧
    Weekday (Location.fixed 18000)
      (weekAnchor (exampleRuntime exampleDocs 18000) (inUTC (1704657600 * Second))) = Monday ∧
    (Location.fixed 18000).clockOf
      (weekAnchor (exampleRuntime exampleDocs 18000) (inUTC (1704657600 * Second))) = 0 := by
  obtain ⟨_, _, _, _, hw, hc, _⟩ := weekAnchor_monday_midnight
    (exampleRuntime exampleDocs 18000) (inUTC (1704657600 * Second)) 18000
    (fun _ _ _ => rfl) (by decide)
  exact ⟨by decide, by decide, by decide, hw, hc⟩

/-- C18 as stated fails: the record of `wrapDoc` (Monday 08:00, duration
`-9223372036s`) parses; subtracting one second from its duration leaves the
`int64` range and wraps, so the interval materialised ends
9223372036709551616 ns after its start and not at `start + d - 1 second`. -/
theorem wrapped_duration_end :
    exampleRT.parseDuration "-9223372036s" = some (-9223372036 * Second) ∧
    (NewFromTime exampleRT wrapDoc (inUTC monday2024)).map (fun r => (r.2, r.1.intervals)) =
      some (none,
        [⟨monday2024 + 8 * Hour, monday2024 + 8 * Hour + 9223372036709551616, "x"⟩]) ∧
    monday2024 + 8 * Hour + 9223372036709551616 ≠
      monday2024 + 8 * Hour + -9223372036 * Second - Second := by
  decide

/-- C18, amended. For every record declared on the `k`-th day of the week
(Monday `k = 0` .. Sunday `k = 6`) with start token `HHMM`, duration `d` and
label `l`, a materialisation for the week with anchor `A` that ends without
an error holds an interval with `start = A + k * 24h + HH hours + MM minutes`,
with label `l`, and with `end = start + (d - 1 second)` computed in `int64`,
which is `start + d - 1 second` whenever `d - 1 second` is an `int64`. -/
theorem materialized_interval_fields (rt : GoRuntime) (sd sd' : ScheduleDefinition) (t : Time)
    (k : Nat) (day : List IntervalJSONEncoding) (r : IntervalJSONEncoding) (d : Int)
    (hload : loadNew rt sd t = some (sd', none))
    (hk : sd.Schedule.days.get? k = some day) (hr : r ∈ day)
    (hd : rt.parseDuration r.Duration = some d) :
    validClock r.Start = true ∧ k < 7 ∧
    ∃ v ∈ sd'.intervals,
      v.start = weekAnchor rt t + (k : Int) * (24 * Hour) + clockHour r.Start * Hour +
        clockMinute r.Start * Minute ∧
      v.label = r.Label ∧
      v.end_ = v.start + wrapInt64 (d - Second) ∧
      (-9223372036854775808 + Second ≤ d → v.end_ = v.start + d - Second) := by
  obtain ⟨hvalid, f, l, _, _, hsd⟩ := loadNew_success rt sd sd' t hload
  have hday : day ∈ sd.Schedule.days := List.get?_mem hk
  have hok := hvalid day hday r hr
  simp only [recordOK, Bool.and_eq_true, timeParse_isSome] at hok
  have hclock := hok.1
  have hk7 : k < 7 := by
    have hlt : k < sd.Schedule.days.length := by
      by_contra hge
      rw [List.get?_eq_none.mpr (by omega)] at hk
      simp at hk
    simpa [WeekSchedule.days] using hlt
  refine ⟨hclock, hk7, mkInterval rt (weekAnchor rt t + (k : Int) * (24 * Hour)) r, ?_, ?_, ?_, ?_, ?_⟩
  · rw [hsd]
    dsimp only
    rw [sortByStart_mem, List.mem_append]
    exact Or.inr (weekIntervals_day_mem rt _ _ k day r hk hr)
  · simp only [mkInterval, timeParse_value r.Start hclock, Option.getD_some]
    ring
  · rfl
  · simp only [mkInterval, hd, Option.getD_some]
  · intro hrange
    have hb := rt.parseDuration_range _ _ hd
    simp only [mkInterval, hd, Option.getD_some, wrapInt64]
    simp only [Second] at hrange ⊢
    omega

theorem materialized_interval_fields_witness :
    ∃ v ∈ overlapSchedule.intervals,
      v.start = weekAnchor exampleRT (inUTC (monday2024 + 3 * Day)) +
        ((1 : Nat) : Int) * (24 * Hour) +
        clockHour "0800" * Hour + clockMinute "0800" * Minute ∧
      v.label = "early" ∧ v.end_ = v.start + 8 * Hour - Second := by
  obtain ⟨v, hv, hstart, hlabel, _, hend⟩ :=
    (materialized_interval_fields exampleRT
      ⟨"overlap", overlapProto, overlapDoc, zeroTime, zeroTime, []⟩ overlapSchedule
      (inUTC (monday2024 + 3 * Day)) 1 [⟨"0800", "8h", "early"⟩] ⟨"0800", "8h", "early"⟩
      (8 * Hour)
      (by decide) (by decide) (by decide) (by decide)).2.2
  exact ⟨v, hv, hstart, hlabel, hend (by decide)⟩

/-- C19. `MatchingIntervals` applies the containment test of `Within`: when
`Within(t)` returns, its answer is `true` exactly when `MatchingIntervals(t)`
on the state the call leaves is not empty; when `t` lies inside
`[first, last]` the call returns, leaves the state as it was, and its answer
is `true` exactly when `MatchingIntervals(t)` on the state before the call is
not empty.  On a schedule built without an error `Within` always returns. -/
theorem Within_iff_MatchingIntervals_nonempty (rt : GoRuntime) (sd : ScheduleDefinition)
    (t : Time) :
    (∀ sd' b, Within rt sd t = some (sd', b) → (b = true ↔ MatchingIntervals sd' t ≠ [])) ∧
    (sd.first ≤ t.ns ∧ t.ns ≤ sd.last →
      ∃ b, Within rt sd t = some (sd, b) ∧ (b = true ↔ MatchingIntervals sd t ≠ [])) ∧
    (Reachable rt sd → ∃ sd' b, Within rt sd t = some (sd', b)) := by
  have key : ∀ s : ScheduleDefinition,
      (withinLoop t.ns s.intervals = true ↔ MatchingIntervals s t ≠ []) := by
    intro s
    have hfilter : MatchingIntervals s t = s.intervals.filter (covers t.ns) := by
      simp [MatchingIntervals, matchingLoop_eq]
    rw [withinLoop_iff, hfilter, Ne, List.filter_eq_nil_iff]
    push_neg
    rfl
  refine ⟨?_, ?_, ?_⟩
  · intro sd' b h
    obtain ⟨hb, _⟩ := Within_some rt sd sd' t b h
    rw [hb]
    exact key sd'
  · intro hin
    have hc : (After t.ns sd.last || Before t.ns sd.first) = false := by
      simp only [After, Before, Bool.or_eq_false_iff, decide_eq_false_iff_not]
      omega
    exact ⟨withinLoop t.ns sd.intervals,
      by simp only [Within, hc, Bool.false_eq_true, if_false], key sd⟩
  · intro h
    obtain ⟨sd', hw, _⟩ := Reachable_Within rt sd t h
    exact ⟨sd', _, hw⟩

theorem Within_iff_MatchingIntervals_nonempty_witness :
    ∃ b, Within exampleRT overlapSchedule (inUTC (monday2024 + 11 * Hour)) = some (overlapSchedule, b) ∧
      (b = true ↔ MatchingIntervals overlapSchedule (inUTC (monday2024 + 11 * Hour)) ≠ []) :=
  (Within_iff_MatchingIntervals_nonempty exampleRT overlapSchedule
    (inUTC (monday2024 + 11 * Hour))).2.1 (by decide)

/-- C20 as stated fails: for `shiftDoc` built in the week of January 1, 2024,
the instant Sunday 10:00 of that week lies after `last`; a first `Within`
there refreshes and leaves two entries with the instant still outside
`[first, last]`, and a second `Within` at the same instant refreshes again
and leaves three entries. -/
theorem Within_twice_grows_list :
    (session exampleRT shiftDoc (inUTC monday2024) [inUTC (monday2024 + 6 * Day + 10 * Hour)]).map
        (fun r => (r.2, r.1.intervals.length,
          decide (r.1.first ≤ monday2024 + 6 * Day + 10 * Hour ∧
            monday2024 + 6 * Day + 10 * Hour ≤ r.1.last))) =
      some ([false], 2, false) ∧
    (session exampleRT shiftDoc (inUTC monday2024)
        [inUTC (monday2024 + 6 * Day + 10 * Hour), inUTC (monday2024 + 6 * Day + 10 * Hour)]).map
        (fun r => (r.2, r.1.intervals.length)) =
      some ([false, false], 3) := by
  decide

/-- C20, amended. For every schedule built without an error, in the state
after any sequence of `Within` calls, and every instant `t`, two `Within(t)`
calls in succession both return and give the same answer; when `t` lies
inside `[first, last]` after the first call, the second call leaves the state
exactly as the first call left it. -/
theorem Within_twice_same_answer (rt : GoRuntime) (sd : ScheduleDefinition) (t : Time)
    (h : Reachable rt sd) :
    ∃ sd1 sd2 b, Within rt sd t = some (sd1, b) ∧ Within rt sd1 t = some (sd2, b) ∧
      (sd1.first ≤ t.ns ∧ t.ns ≤ sd1.last → sd2 = sd1) := by
  rcases Reachable_Within_cases rt sd t h with ⟨_, hw⟩ | ⟨_, sd1, hw1, hsched, hmem1⟩
  · exact ⟨sd, sd, _, hw, hw, fun _ => rfl⟩
  · have h1 : Reachable rt sd1 := Reachable.query sd t sd1 _ h hw1
    rcases Reachable_Within_cases rt sd1 t h1 with ⟨_, hw2⟩ | ⟨hout2, sd2, hw2, _, hmem2⟩
    · exact ⟨sd1, sd1, _, hw1, hw2, fun _ => rfl⟩
    · have hsame : withinLoop t.ns sd2.intervals = withinLoop t.ns sd1.intervals := by
        rw [Bool.eq_iff_iff, withinLoop_iff, withinLoop_iff]
        constructor
        · rintro ⟨v, hv, hc⟩
          refine ⟨v, ?_, hc⟩
          rcases (hmem2 v).mp hv with hv1 | hvw
          · exact hv1
          · rw [hsched] at hvw
            exact (hmem1 v).mpr (Or.inr hvw)
        · rintro ⟨v, hv, hc⟩
          exact ⟨v, (hmem2 v).mpr (Or.inl hv), hc⟩
      rw [hsame] at hw2
      refine ⟨sd1, sd2, _, hw1, hw2, ?_⟩
      intro hin
      omega

theorem Within_twice_same_answer_witness :
    ∃ sd1 sd2 b,
      Within exampleRT overlapSchedule (inUTC (monday2024 + 6 * Day + 10 * Hour)) = some (sd1, b) ∧
      Within exampleRT sd1 (inUTC (monday2024 + 6 * Day + 10 * Hour)) = some (sd2, b) := by
  obtain ⟨sd1, sd2, b, h1, h2, _⟩ :=
    Within_twice_same_answer exampleRT overlapSchedule
      (inUTC (monday2024 + 6 * Day + 10 * Hour))
      (Reachable.construct overlapDoc (inUTC monday2024) overlapSchedule overlapSchedule_built)
  exact ⟨sd1, sd2, b, h1, h2⟩

end Protoschedule
